import Mathlib

/-!
# Depth-buffer update kernels of `PixelPainters.cpp` and `PixelPaintersACC.cpp`

A shallow embedding of the two benchmark programs.

* A `Pixel` is the C++ struct `{ int color; float depth; }`.  Depths are modelled as exact
  rationals: the programs only ever compare depths and copy them, and every depth they
  produce is one of `0/10, 1/10, ..., 9/10` or the initial `1`.
* Storage that was never written can hold any `float`, NaN included.  The kernel of
  `PixelPainters.cpp` therefore has a second copy on `FPixel`, whose depth is a `FloatVal`
  (NaN, an infinity or a number) compared as `float` values are; on numbers the two copies
  agree (`framePassF_toFPixel`).
* A pixel buffer `Pixel*` of `n` cells is a `List Pixel` of length `n`.  A read or a write
  at an index outside the list is undefined behaviour in C++; the embedding leaves the
  buffer untouched there.
* The candidate arrays `randArrC[MAX][MAX]`, `randArrD[MAX][MAX]` are functions of the two
  indices; the kernels only read them at indices below `MAX`.
* The candidate arrays `randArrL[max]`, `randArrH[max]` of `PixelPaintersACC.cpp` are lists
  of length `max`; `updateBufferRandom` returns `none` when it reads outside one of them.
* A size loop `for (w = ...; w <= limit; w *= f)` is unrolled with a fuel argument; the
  results are stated for every fuel that suffices.
* Loops `for (int x = 0; x < n; x++)` are left folds over `List.range n`.
-/

/-- A pixel has a colour and a depth (`struct Pixel`, both source files). -/
structure Pixel where
  color : Int
  depth : ℚ
  deriving DecidableEq

/-- The outcome of the guarded assignment for the one pixel it touches: the candidate
`(c, d)` replaces the stored pixel exactly when `d` is strictly below the stored depth. -/
def pixelStep (c : Int) (d : ℚ) (p : Pixel) : Pixel :=
  if d < p.depth then ⟨c, d⟩ else p

/-- A value of the C++ type `float` as a comparison sees it: not-a-number, minus infinity,
a number, or plus infinity.  It is the depth type of the second copy of the kernel below,
which covers storage that was never written and may hold any bit pattern. -/
inductive FloatVal where
  | nan
  | negInf
  | num (q : ℚ)
  | posInf
  deriving DecidableEq

/-- The comparison `x < y` of two `float` values: false as soon as one of them is NaN. -/
def FloatVal.lt : FloatVal → FloatVal → Bool
  | FloatVal.nan, FloatVal.nan => false
  | FloatVal.nan, FloatVal.negInf => false
  | FloatVal.nan, FloatVal.num _ => false
  | FloatVal.nan, FloatVal.posInf => false
  | FloatVal.negInf, FloatVal.nan => false
  | FloatVal.negInf, FloatVal.negInf => false
  | FloatVal.negInf, FloatVal.num _ => true
  | FloatVal.negInf, FloatVal.posInf => true
  | FloatVal.num _, FloatVal.nan => false
  | FloatVal.num _, FloatVal.negInf => false
  | FloatVal.num a, FloatVal.num c => decide (a < c)
  | FloatVal.num _, FloatVal.posInf => true
  | FloatVal.posInf, FloatVal.nan => false
  | FloatVal.posInf, FloatVal.negInf => false
  | FloatVal.posInf, FloatVal.num _ => false
  | FloatVal.posInf, FloatVal.posInf => false

/-- The comparison `x <= y` of two `float` values: false as soon as one of them is NaN. -/
def FloatVal.le : FloatVal → FloatVal → Bool
  | FloatVal.nan, FloatVal.nan => false
  | FloatVal.nan, FloatVal.negInf => false
  | FloatVal.nan, FloatVal.num _ => false
  | FloatVal.nan, FloatVal.posInf => false
  | FloatVal.negInf, FloatVal.nan => false
  | FloatVal.negInf, FloatVal.negInf => true
  | FloatVal.negInf, FloatVal.num _ => true
  | FloatVal.negInf, FloatVal.posInf => true
  | FloatVal.num _, FloatVal.nan => false
  | FloatVal.num _, FloatVal.negInf => false
  | FloatVal.num a, FloatVal.num c => decide (a ≤ c)
  | FloatVal.num _, FloatVal.posInf => true
  | FloatVal.posInf, FloatVal.nan => false
  | FloatVal.posInf, FloatVal.negInf => false
  | FloatVal.posInf, FloatVal.num _ => false
  | FloatVal.posInf, FloatVal.posInf => true

/-- The struct `Pixel` with its depth as a `float` value, NaN and infinities included. -/
structure FPixel where
  color : Int
  depth : FloatVal
  deriving DecidableEq

/-- The guarded assignment on one pixel, with `float` depths: the candidate `(c, d)`
replaces the stored pixel exactly when `d < stored depth` holds as a `float` comparison. -/
def pixelStepF (c : Int) (d : FloatVal) (p : FPixel) : FPixel :=
  if FloatVal.lt d p.depth = true then ⟨c, d⟩ else p

/-- A pixel of the rational model as a pixel with a `float` depth. -/
def toFPixel (p : Pixel) : FPixel :=
  ⟨p.color, FloatVal.num p.depth⟩

/-- Conversion of a floating-point value to `int`, as in `randArrL[k] = genRandom1();`:
the fractional part is discarded (truncation toward zero). -/
def floatToInt (x : ℚ) : Int :=
  if 0 ≤ x then ⌊x⌋ else ⌈x⌉

/-- Value of a 32-bit two's-complement `int` holding the mathematical result `x` after
wrap-around. -/
def wrapInt32 (x : Int) : Int :=
  (x + 2 ^ 31) % 2 ^ 32 - 2 ^ 31

namespace PixelPainters

/-- Number of size doublings, `const int ITERS = 7;`. -/
def ITERS : Nat := 7

/-- Number of frame updates per buffer, `const int FPS = 100;`. -/
def FPS : Nat := 100

/-- Initial width, `const int DIM = 100;`. -/
def DIM : Nat := 100

/-- Largest width and side of the candidate arrays, `const int MAX = DIM * (1 << ITERS);`. -/
def MAX : Nat := DIM * (1 <<< ITERS)

/-- The body of the innermost loop (lines 90-95):
`count = i*w+j; if (randArrD[i][(j+b)%MAX] < zbuffer[count].depth) zbuffer[count] = {..}`. -/
def updatePixel (randArrC : Nat → Nat → Int) (randArrD : Nat → Nat → ℚ) (w b : Nat)
    (zbuffer : List Pixel) (i j : Nat) : List Pixel :=
  let count := i * w + j
  match zbuffer[count]? with
  | some p =>
    if randArrD i ((j + b) % MAX) < p.depth then
      zbuffer.set count ⟨randArrC i ((j + b) % MAX), randArrD i ((j + b) % MAX)⟩
    else zbuffer
  | none => zbuffer

/-- The inner loop `for (int j = 0; j < w; j++)` of row `i` (lines 89-96). -/
def rowPass (randArrC : Nat → Nat → Int) (randArrD : Nat → Nat → ℚ) (w b : Nat)
    (zbuffer : List Pixel) (i : Nat) : List Pixel :=
  (List.range w).foldl (fun z j => updatePixel randArrC randArrD w b z i j) zbuffer

/-- One frame pass: the loop `for (int i = 0; i < w; i++)` over the rows (lines 87-97). -/
def framePass (randArrC : Nat → Nat → Int) (randArrD : Nat → Nat → ℚ) (w b : Nat)
    (zbuffer : List Pixel) : List Pixel :=
  (List.range w).foldl (fun z i => rowPass randArrC randArrD w b z i) zbuffer

/-- The frame loop `for (int b = 0; b < n; b++)` (lines 84-98; the program runs it with
`n = FPS`). -/
def runFrames (randArrC : Nat → Nat → Int) (randArrD : Nat → Nat → ℚ) (w n : Nat)
    (zbuffer : List Pixel) : List Pixel :=
  (List.range n).foldl (fun z b => framePass randArrC randArrD w b z) zbuffer

/-- The body of the size loop for one width `w` (lines 73-98): `alloc` is the content of
the storage returned by `new Pixel[w*w]`, which the program passes to the frame loop as
it is. -/
def sweepBody (randArrC : Nat → Nat → Int) (randArrD : Nat → Nat → ℚ) (w : Nat)
    (alloc : List Pixel) : List Pixel :=
  runFrames randArrC randArrD w FPS alloc

/-- The per-pixel update applied over an arbitrary enumeration of (row, column) visits. -/
def visitPass (randArrC : Nat → Nat → Int) (randArrD : Nat → Nat → ℚ) (w b : Nat)
    (order : List (Nat × Nat)) (zbuffer : List Pixel) : List Pixel :=
  order.foldl (fun z v => updatePixel randArrC randArrD w b z v.1 v.2) zbuffer

/-- What the frames `0, ..., n-1` do to the single pixel at row `i`, column `j`. -/
def pixelAfter (randArrC : Nat → Nat → Int) (randArrD : Nat → Nat → ℚ) (i j n : Nat)
    (p : Pixel) : Pixel :=
  (List.range n).foldl
    (fun q b => pixelStep (randArrC i ((j + b) % MAX)) (randArrD i ((j + b) % MAX)) q) p

/-- The body of the innermost loop (lines 90-95) with `float` depths:
`count = i*w+j; if (randArrD[i][(j+b)%MAX] < zbuffer[count].depth) zbuffer[count] = {..}`,
the test being the `float` comparison. -/
def updatePixelF (randArrC : Nat → Nat → Int) (randArrD : Nat → Nat → FloatVal) (w b : Nat)
    (zbuffer : List FPixel) (i j : Nat) : List FPixel :=
  let count := i * w + j
  match zbuffer[count]? with
  | some p =>
    if FloatVal.lt (randArrD i ((j + b) % MAX)) p.depth = true then
      zbuffer.set count ⟨randArrC i ((j + b) % MAX), randArrD i ((j + b) % MAX)⟩
    else zbuffer
  | none => zbuffer

/-- The inner loop `for (int j = 0; j < w; j++)` of row `i` (lines 89-96), `float` depths. -/
def rowPassF (randArrC : Nat → Nat → Int) (randArrD : Nat → Nat → FloatVal) (w b : Nat)
    (zbuffer : List FPixel) (i : Nat) : List FPixel :=
  (List.range w).foldl (fun z j => updatePixelF randArrC randArrD w b z i j) zbuffer

/-- One frame pass (lines 87-97), `float` depths. -/
def framePassF (randArrC : Nat → Nat → Int) (randArrD : Nat → Nat → FloatVal) (w b : Nat)
    (zbuffer : List FPixel) : List FPixel :=
  (List.range w).foldl (fun z i => rowPassF randArrC randArrD w b z i) zbuffer

/-- The frame loop `for (int b = 0; b < n; b++)` (lines 84-98), `float` depths. -/
def runFramesF (randArrC : Nat → Nat → Int) (randArrD : Nat → Nat → FloatVal) (w n : Nat)
    (zbuffer : List FPixel) : List FPixel :=
  (List.range n).foldl (fun z b => framePassF randArrC randArrD w b z) zbuffer

/-- Candidate colours of the 2 x 2 scenario, row-major `5, 2, 7, 3`. -/
def scenarioC : Nat → Nat → Int :=
  fun i j => if i = 0 then (if j = 0 then 5 else 2) else (if j = 0 then 7 else 3)

/-- Candidate depths of the 2 x 2 scenario, row-major `0.3, 0.9, 0.1, 0.5`. -/
def scenarioD : Nat → Nat → ℚ :=
  fun i j => if i = 0 then (if j = 0 then 3 / 10 else 9 / 10)
    else (if j = 0 then 1 / 10 else 5 / 10)

/-- Candidate depths of the 2 x 2 scenario as `float` values. -/
def scenarioDF : Nat → Nat → FloatVal :=
  fun i j => FloatVal.num (scenarioD i j)

/-- The buffer the 2 x 2 scenario expects after its first frame. -/
def scenarioBuffer : List Pixel :=
  [⟨5, 3 / 10⟩, ⟨2, 9 / 10⟩, ⟨7, 1 / 10⟩, ⟨3, 5 / 10⟩]

/-- The value stored by `randArrC[j][k] = (rand() % 10);` when `rand()` returns `r`. -/
def drawColor (r : Nat) : Int :=
  ((r % 10 : Nat) : Int)

/-- The value stored by `randArrD[j][k] = (rand() % 10)/10.0f;` when `rand()` returns `r`,
as the exact rational `(r % 10) / 10`. -/
def drawDepth (r : Nat) : ℚ :=
  ((r % 10 : Nat) : ℚ) / 10

/-- The colour array after the generation loops (lines 60-65), `draws n` being the value of
the `n`-th call of `rand()`: cell `[j][k]` takes the call number `2 * (j * MAX + k)`. -/
def genRandArrC (draws : Nat → Nat) : Nat → Nat → Int :=
  fun j k => drawColor (draws (2 * (j * MAX + k)))

/-- The depth array after the generation loops (lines 60-65): cell `[j][k]` takes the call
number `2 * (j * MAX + k) + 1` of `rand()`. -/
def genRandArrD (draws : Nat → Nat) : Nat → Nat → ℚ :=
  fun j k => drawDepth (draws (2 * (j * MAX + k) + 1))

/-- The size loop `for (int w = ...; w <= MAX; w *= 2)` (line 70) from the current width
`w` on: the list of the widths for which the body runs.  `fuel` bounds the number of
iterations that are unrolled. -/
def sweepLoop : Nat → Nat → List Nat
  | 0, _ => []
  | fuel + 1, w => if w ≤ MAX then w :: sweepLoop fuel (w * 2) else []

/-- The widths of the size loop started at `w = DIM` (line 70). -/
def sweepWidths (fuel : Nat) : List Nat :=
  sweepLoop fuel DIM

end PixelPainters

namespace PixelPaintersACC

/-- The assignment `zbuffer[k].color = c;`. -/
def setColor (zbuffer : List Pixel) (k : Nat) (c : Int) : List Pixel :=
  match zbuffer[k]? with
  | some p => zbuffer.set k { p with color := c }
  | none => zbuffer

/-- The assignment `zbuffer[k].depth = d;`. -/
def setDepth (zbuffer : List Pixel) (k : Nat) (d : ℚ) : List Pixel :=
  match zbuffer[k]? with
  | some p => zbuffer.set k { p with depth := d }
  | none => zbuffer

/-- The initialisation loop of `main` (lines 76-81):
`for i < w: for j < w: { zbuffer[i*j].color = 0; zbuffer[i*j].depth = 1; }`,
run on the content `zbuffer` of the storage returned by `new Pixel[w*w]`. -/
def initBuffer (w : Nat) (zbuffer : List Pixel) : List Pixel :=
  (List.range w).foldl
    (fun z i => (List.range w).foldl (fun z j => setDepth (setColor z (i * j) 0) (i * j) 1) z)
    zbuffer

/-- Number of frame updates, `int fps = 10;`. -/
def fps : Nat := 10

/-- Number of sizes, `int iterations = 5;`. -/
def iterations : Nat := 5

/-- Length of the candidate arrays, `int max = pow(10, iterations);`. -/
def max : Nat := 10 ^ iterations

/-- The function `genRandom1` when `rand()` returns `r`: `d = rand() % 10; return d/10.0;`,
as the exact rational `(r % 10) / 10`. -/
def genRandom1 (r : Nat) : ℚ :=
  ((r % 10 : Nat) : ℚ) / 10

/-- The function `genRandom2` when `rand()` returns `r`: `return (float)(rand() % 10);`. -/
def genRandom2 (r : Nat) : ℚ :=
  ((r % 10 : Nat) : ℚ)

/-- The `int` array `randArrL` after the loop `randArrL[k] = genRandom1();` (lines 56-58),
`draws n` being the value of the `n`-th call of `rand()`. -/
def genRandArrL (draws : Nat → Nat) : List Int :=
  (List.range max).map (fun k => floatToInt (genRandom1 (draws k)))

/-- The `int` array `randArrH` after the loop `randArrH[k] = genRandom2();` (lines 59-61),
which takes the calls of `rand()` that follow the `max` calls of the first loop. -/
def genRandArrH (draws : Nat → Nat) : List Int :=
  (List.range max).map (fun k => floatToInt (genRandom2 (draws (max + k))))

/-- The `int` expression `w*w` of `new Pixel[w*w]` (line 73) and `maxWidth*maxWidth`
(line 143), evaluated in 32-bit wrap-around arithmetic. -/
def pixelCount (w : Int) : Int :=
  wrapInt32 (w * w)

/-- The guarded write of `updateBufferRandom` (lines 155-160) at cell `k`:
`if (depth < zbuffer[k].depth) { zbuffer[k].color = newc; zbuffer[k].depth = depth; }`. -/
def guardedWrite (zbuffer : List Pixel) (k : Nat) (newc : Int) (depth : ℚ) : List Pixel :=
  match zbuffer[k]? with
  | some p => if depth < p.depth then setDepth (setColor zbuffer k newc) k depth else zbuffer
  | none => zbuffer

/-- The body of the inner loop of `updateBufferRandom` (lines 151-163) on the state
`(zbuffer, count)`: read `randArrL[count]` and `randArrH[count]`, do the guarded write at
cell `i*j`, then `count++`.  A read outside one of the arrays gives `none`. -/
def updateVisit (randArrL randArrH : List Int) (s : List Pixel × Nat) (i j : Nat) :
    Option (List Pixel × Nat) :=
  match randArrL[s.2]?, randArrH[s.2]? with
  | some l, some h => some (guardedWrite s.1 (i * j) h (l : ℚ), s.2 + 1)
  | _, _ => none

/-- The function `updateBufferRandom` (lines 141-167) under sequential semantics: `count`
starts at 0 and the nested loops visit `(i, j)` in row-major order.  The parameter `max` is
the declared length of the two arrays; the function only uses it in its data clause. -/
def updateBufferRandom (zbuffer : List Pixel) (maxWidth : Nat) (randArrL randArrH : List Int)
    (_max : Nat) : Option (List Pixel) :=
  ((List.range maxWidth).foldlM
    (fun s i => (List.range maxWidth).foldlM (fun s j => updateVisit randArrL randArrH s i j) s)
    (zbuffer, 0)).map Prod.fst

/-- The frame loop of `main` (lines 92-94): `n` calls of `updateBufferRandom` with the same
arguments (the program runs it with `n = fps`). -/
def frameLoop (n : Nat) (zbuffer : List Pixel) (w : Nat) (randArrL randArrH : List Int)
    (max : Nat) : Option (List Pixel) :=
  (List.range n).foldlM (fun z _ => updateBufferRandom z w randArrL randArrH max) zbuffer

/-- The size loop `for (int w = ...; w <= max; w *= 10)` (line 68) from the current width
`w` on: the list of the widths for which the body runs.  `fuel` bounds the number of
iterations that are unrolled. -/
def sweepLoop : Nat → Nat → List Nat
  | 0, _ => []
  | fuel + 1, w => if w ≤ max then w :: sweepLoop fuel (w * 10) else []

/-- The writes `(cell, colour, depth)` that the visits `vs` perform when `count` starts at
`n`: the visit number `t` reads the arrays at index `n + t`. -/
def writesFrom (randArrL randArrH : List Int) : List (Nat × Nat) → Nat → List (Nat × Int × ℚ)
  | [], _ => []
  | v :: vs, n =>
    (v.1 * v.2, randArrH.getD n 0, ((randArrL.getD n 0 : Int) : ℚ)) ::
      writesFrom randArrL randArrH vs (n + 1)

/-- What a list of writes does to the single pixel stored in cell `m`. -/
def cellFold (ws : List (Nat × Int × ℚ)) (m : Nat) (p : Pixel) : Pixel :=
  ws.foldl (fun q w => if w.1 = m then pixelStep w.2.1 w.2.2 q else q) p

end PixelPaintersACC

namespace PixelPainters

/-! ### The kernel, cell by cell -/

theorem MAX_eq : MAX = 12800 := by decide

theorem updatePixel_getElem? (C : Nat → Nat → Int) (D : Nat → Nat → ℚ) (w b : Nat)
    (z : List Pixel) (i j k : Nat) :
    (updatePixel C D w b z i j)[k]? =
      if k = i * w + j then
        (z[k]?).map (pixelStep (C i ((j + b) % MAX)) (D i ((j + b) % MAX)))
      else z[k]? := by
  unfold updatePixel
  simp only
  cases hz : z[i * w + j]? with
  | none =>
    by_cases hk : k = i * w + j
    · subst hk; simp [hz]
    · simp [hk]
  | some p =>
    have hlt : i * w + j < z.length := by
      by_contra hge
      rw [List.getElem?_eq_none (by omega)] at hz
      cases hz
    by_cases hk : k = i * w + j
    · subst hk
      by_cases hd : D i ((j + b) % MAX) < p.depth
      · simp [hz, hd, pixelStep, List.getElem?_set_self hlt]
      · simp [hz, hd, pixelStep]
    · by_cases hd : D i ((j + b) % MAX) < p.depth
      · simp [hd, hk, List.getElem?_set_ne (Ne.symm hk)]
      · simp [hd, hk]

theorem updatePixel_length (C : Nat → Nat → Int) (D : Nat → Nat → ℚ) (w b : Nat)
    (z : List Pixel) (i j : Nat) : (updatePixel C D w b z i j).length = z.length := by
  unfold updatePixel
  simp only
  split
  · split <;> simp
  · rfl

theorem rowLoop_getElem? (C : Nat → Nat → Int) (D : Nat → Nat → ℚ) (w b i : Nat) (m : Nat)
    (z : List Pixel) (k : Nat) :
    ((List.range m).foldl (fun z j => updatePixel C D w b z i j) z)[k]? =
      if i * w ≤ k ∧ k < i * w + m then
        (z[k]?).map (pixelStep (C i ((k - i * w + b) % MAX)) (D i ((k - i * w + b) % MAX)))
      else z[k]? := by
  induction m with
  | zero =>
    have h0 : ¬ (i * w ≤ k ∧ k < i * w + 0) := by omega
    rw [if_neg h0]
    rfl
  | succ m ih =>
    rw [List.range_succ, List.foldl_append]
    simp only [List.foldl_cons, List.foldl_nil]
    rw [updatePixel_getElem?, ih]
    by_cases hk : k = i * w + m
    · subst hk
      simp
    · by_cases hr : i * w ≤ k ∧ k < i * w + m
      · have hr2 : i * w ≤ k ∧ k < i * w + (m + 1) := ⟨hr.1, by omega⟩
        simp [hk, hr, hr2]
      · have hr2 : ¬ (i * w ≤ k ∧ k < i * w + (m + 1)) := by
          intro h
          exact hr ⟨h.1, by omega⟩
        simp [hk, hr, hr2]

theorem rowPass_getElem? (C : Nat → Nat → Int) (D : Nat → Nat → ℚ) (w b : Nat)
    (z : List Pixel) (i k : Nat) :
    (rowPass C D w b z i)[k]? =
      if i * w ≤ k ∧ k < i * w + w then
        (z[k]?).map (pixelStep (C i ((k - i * w + b) % MAX)) (D i ((k - i * w + b) % MAX)))
      else z[k]? :=
  rowLoop_getElem? C D w b i w z k

theorem frameLoop_getElem? (C : Nat → Nat → Int) (D : Nat → Nat → ℚ) (w b : Nat) (m : Nat)
    (z : List Pixel) (k : Nat) :
    ((List.range m).foldl (fun z i => rowPass C D w b z i) z)[k]? =
      if k < m * w then
        (z[k]?).map
          (pixelStep (C (k / w) ((k % w + b) % MAX)) (D (k / w) ((k % w + b) % MAX)))
      else z[k]? := by
  induction m with
  | zero => simp
  | succ m ih =>
    rw [List.range_succ, List.foldl_append]
    simp only [List.foldl_cons, List.foldl_nil]
    rw [rowPass_getElem?, ih]
    have hmul : (m + 1) * w = m * w + w := by ring
    by_cases hlo : k < m * w
    · have h1 : ¬ (m * w ≤ k ∧ k < m * w + w) := by omega
      have h2 : k < (m + 1) * w := by omega
      simp [hlo, h1, h2]
    · by_cases hhi : k < m * w + w
      · have h1 : m * w ≤ k ∧ k < m * w + w := ⟨by omega, hhi⟩
        have h2 : k < (m + 1) * w := by omega
        have hwpos : 0 < w := by
          rcases Nat.eq_zero_or_pos w with h0 | h0
          · subst h0; omega
          · exact h0
        have hdiv : k / w = m := by
          apply Nat.div_eq_of_lt_le
          · simpa using h1.1
          · simpa [hmul] using hhi
        have hmod : k % w = k - m * w := by
          have h3 := Nat.div_add_mod k w
          rw [hdiv] at h3
          have h4 : w * m = m * w := Nat.mul_comm w m
          omega
        simp [hlo, h1, h2, hdiv, hmod]
      · have h1 : ¬ (m * w ≤ k ∧ k < m * w + w) := by omega
        have h2 : ¬ k < (m + 1) * w := by omega
        simp [hlo, h1, h2]

/-- Closed form of one frame pass: cell `k` of a `w`-wide buffer receives the guarded
assignment with the candidate of row `k / w`, column `k % w`; cells from `w*w` on are not
touched. -/
theorem framePass_getElem? (C : Nat → Nat → Int) (D : Nat → Nat → ℚ) (w b : Nat)
    (z : List Pixel) (k : Nat) :
    (framePass C D w b z)[k]? =
      if k < w * w then
        (z[k]?).map
          (pixelStep (C (k / w) ((k % w + b) % MAX)) (D (k / w) ((k % w + b) % MAX)))
      else z[k]? :=
  frameLoop_getElem? C D w b w z k

theorem cell_div_mod {w i j : Nat} (hj : j < w) : (i * w + j) / w = i ∧ (i * w + j) % w = j := by
  have hw : 0 < w := by omega
  constructor
  · rw [Nat.mul_comm, Nat.mul_add_div hw, Nat.div_eq_of_lt hj, Nat.add_zero]
  · rw [Nat.mul_comm, Nat.mul_add_mod, Nat.mod_eq_of_lt hj]

theorem cell_lt {w i j : Nat} (hi : i < w) (hj : j < w) : i * w + j < w * w := by
  have h : (i + 1) * w ≤ w * w := Nat.mul_le_mul_right w hi
  have h2 : (i + 1) * w = i * w + w := by ring
  omega

theorem framePass_cell (C : Nat → Nat → Int) (D : Nat → Nat → ℚ) (w b : Nat)
    (z : List Pixel) {i j : Nat} (hi : i < w) (hj : j < w) :
    (framePass C D w b z)[i * w + j]? =
      (z[i * w + j]?).map (pixelStep (C i ((j + b) % MAX)) (D i ((j + b) % MAX))) := by
  rw [framePass_getElem?, if_pos (cell_lt hi hj), (cell_div_mod hj).1, (cell_div_mod hj).2]

theorem length_eq_of_getElem? {l₁ l₂ : List Pixel}
    (h : ∀ k : Nat, (l₁[k]?).isSome = (l₂[k]?).isSome) : l₁.length = l₂.length := by
  rcases Nat.lt_trichotomy l₁.length l₂.length with hlt | heq | hgt
  · have := h l₁.length
    rw [List.getElem?_eq_none (Nat.le_refl _), List.getElem?_eq_getElem hlt] at this
    simp at this
  · exact heq
  · have := h l₂.length
    rw [List.getElem?_eq_none (Nat.le_refl _), List.getElem?_eq_getElem hgt] at this
    simp at this

theorem framePass_length (C : Nat → Nat → Int) (D : Nat → Nat → ℚ) (w b : Nat)
    (z : List Pixel) : (framePass C D w b z).length = z.length := by
  apply length_eq_of_getElem?
  intro k
  rw [framePass_getElem?]
  split <;> simp

theorem runFrames_succ (C : Nat → Nat → Int) (D : Nat → Nat → ℚ) (w n : Nat)
    (z : List Pixel) :
    runFrames C D w (n + 1) z = framePass C D w n (runFrames C D w n z) := by
  simp [runFrames, List.range_succ, List.foldl_append]

theorem runFrames_length (C : Nat → Nat → Int) (D : Nat → Nat → ℚ) (w n : Nat)
    (z : List Pixel) : (runFrames C D w n z).length = z.length := by
  induction n with
  | zero => simp [runFrames]
  | succ n ih => rw [runFrames_succ, framePass_length, ih]

theorem pixelAfter_succ (C : Nat → Nat → Int) (D : Nat → Nat → ℚ) (i j n : Nat) (p : Pixel) :
    pixelAfter C D i j (n + 1) p =
      pixelStep (C i ((j + n) % MAX)) (D i ((j + n) % MAX)) (pixelAfter C D i j n p) := by
  simp [pixelAfter, List.range_succ, List.foldl_append]

theorem runFrames_cell (C : Nat → Nat → Int) (D : Nat → Nat → ℚ) (w n : Nat)
    (z : List Pixel) {i j : Nat} (hi : i < w) (hj : j < w) :
    (runFrames C D w n z)[i * w + j]? = (z[i * w + j]?).map (pixelAfter C D i j n) := by
  induction n with
  | zero => cases hz : z[i * w + j]? <;> simp [runFrames, pixelAfter, hz]
  | succ n ih =>
    rw [runFrames_succ, framePass_cell C D w n _ hi hj, ih]
    cases z[i * w + j]? with
    | none => rfl
    | some p => simp [pixelAfter_succ]

/-! ### One pixel over the frames -/

theorem pixelStep_depth (c : Int) (d : ℚ) (p : Pixel) :
    (pixelStep c d p).depth = min d p.depth := by
  unfold pixelStep
  by_cases h : d < p.depth
  · rw [if_pos h, min_eq_left (le_of_lt h)]
  · rw [if_neg h, min_eq_right (not_lt.mp h)]

theorem pixelStep_idem (c : Int) (d : ℚ) (p : Pixel) :
    pixelStep c d (pixelStep c d p) = pixelStep c d p := by
  unfold pixelStep
  by_cases h : d < p.depth
  · simp [h]
  · simp [h]

theorem pixelStep_of_le (c : Int) (d : ℚ) (p : Pixel) (h : p.depth ≤ d) :
    pixelStep c d p = p := by
  unfold pixelStep
  rw [if_neg (not_lt.mpr h)]

theorem pixelAfter_depth_le (C : Nat → Nat → Int) (D : Nat → Nat → ℚ) (i j n : Nat)
    (p : Pixel) :
    (pixelAfter C D i j n p).depth ≤ p.depth ∧
      ∀ b, b < n → (pixelAfter C D i j n p).depth ≤ D i ((j + b) % MAX) := by
  induction n with
  | zero =>
    refine ⟨by simp [pixelAfter], ?_⟩
    intro b hb
    omega
  | succ n ih =>
    rw [pixelAfter_succ, pixelStep_depth]
    refine ⟨le_trans (min_le_right _ _) ih.1, ?_⟩
    intro b hb
    rcases Nat.lt_succ_iff_lt_or_eq.mp hb with hlt | heq
    · exact le_trans (min_le_right _ _) (ih.2 b hlt)
    · subst heq
      exact min_le_left _ _

theorem pixelAfter_depth_attained (C : Nat → Nat → Int) (D : Nat → Nat → ℚ) (i j n : Nat)
    (p : Pixel) :
    (pixelAfter C D i j n p).depth = p.depth ∨
      ∃ b, b < n ∧ (pixelAfter C D i j n p).depth = D i ((j + b) % MAX) := by
  induction n with
  | zero => left; simp [pixelAfter]
  | succ n ih =>
    rw [pixelAfter_succ, pixelStep_depth]
    rcases min_choice (D i ((j + n) % MAX)) (pixelAfter C D i j n p).depth with h | h
    · right
      exact ⟨n, Nat.lt_succ_self n, h⟩
    · rw [h]
      rcases ih with h1 | ⟨b, hb, h1⟩
      · left; exact h1
      · right
        exact ⟨b, Nat.lt_succ_of_lt hb, h1⟩

theorem pixelAfter_depth_eq_min (C : Nat → Nat → Int) (D : Nat → Nat → ℚ) (i j n : Nat)
    (p : Pixel) :
    (pixelAfter C D i j (n + 1) p).depth =
      min p.depth
        ((Finset.range (n + 1)).inf' Finset.nonempty_range_succ
          (fun b => D i ((j + b) % MAX))) := by
  have hle := pixelAfter_depth_le C D i j (n + 1) p
  apply le_antisymm
  · apply le_min hle.1
    apply Finset.le_inf'
    intro b hb
    exact hle.2 b (Finset.mem_range.mp hb)
  · rcases pixelAfter_depth_attained C D i j (n + 1) p with h | ⟨b, hb, h⟩
    · rw [h]
      exact min_le_left _ _
    · rw [h]
      refine le_trans (min_le_right _ _) ?_
      exact Finset.inf'_le (fun b => D i ((j + b) % MAX)) (Finset.mem_range.mpr hb)

/-- The pixel that started as `(0, 1)` is, after the frames `0, ..., n-1`, either still
`(0, 1)` (no offer below `1`) or the candidate pair of the earliest frame that offers the
least depth. -/
theorem pixelAfter_init (C : Nat → Nat → Int) (D : Nat → Nat → ℚ) (i j n : Nat) :
    ((∀ b, b < n → 1 ≤ D i ((j + b) % MAX)) ∧ pixelAfter C D i j n ⟨0, 1⟩ = ⟨0, 1⟩) ∨
      ∃ bs, bs < n ∧ D i ((j + bs) % MAX) < 1 ∧
        (∀ b, b < n → D i ((j + bs) % MAX) ≤ D i ((j + b) % MAX)) ∧
        (∀ b, b < bs → D i ((j + bs) % MAX) < D i ((j + b) % MAX)) ∧
        pixelAfter C D i j n ⟨0, 1⟩ = ⟨C i ((j + bs) % MAX), D i ((j + bs) % MAX)⟩ := by
  induction n with
  | zero =>
    left
    refine ⟨?_, by simp [pixelAfter]⟩
    intro b hb
    omega
  | succ n ih =>
    rw [pixelAfter_succ]
    rcases ih with ⟨hall, hp⟩ | ⟨bs, hbs, hlt1, hmin, hfirst, hp⟩
    · rw [hp]
      by_cases hd : D i ((j + n) % MAX) < 1
      · right
        refine ⟨n, Nat.lt_succ_self n, hd, ?_, ?_, ?_⟩
        · intro b hb
          rcases Nat.lt_succ_iff_lt_or_eq.mp hb with hlt | heq
          · exact le_of_lt (lt_of_lt_of_le hd (hall b hlt))
          · subst heq
            exact le_refl _
        · intro b hb
          exact lt_of_lt_of_le hd (hall b hb)
        · simp [pixelStep, hd]
      · left
        refine ⟨?_, ?_⟩
        · intro b hb
          rcases Nat.lt_succ_iff_lt_or_eq.mp hb with hlt | heq
          · exact hall b hlt
          · subst heq
            exact not_lt.mp hd
        · simp [pixelStep, hd]
    · rw [hp]
      right
      by_cases hd : D i ((j + n) % MAX) < D i ((j + bs) % MAX)
      · refine ⟨n, Nat.lt_succ_self n, lt_trans hd hlt1, ?_, ?_, ?_⟩
        · intro b hb
          rcases Nat.lt_succ_iff_lt_or_eq.mp hb with hlt | heq
          · exact le_of_lt (lt_of_lt_of_le hd (hmin b hlt))
          · subst heq
            exact le_refl _
        · intro b hb
          exact lt_of_lt_of_le hd (hmin b hb)
        · simp [pixelStep, hd]
      · refine ⟨bs, Nat.lt_succ_of_lt hbs, hlt1, ?_, hfirst, ?_⟩
        · intro b hb
          rcases Nat.lt_succ_iff_lt_or_eq.mp hb with hlt | heq
          · exact hmin b hlt
          · subst heq
            exact not_lt.mp hd
        · simp [pixelStep, hd]

/-! ### Visiting the pixels in another order -/

theorem updatePixel_comm (C : Nat → Nat → Int) (D : Nat → Nat → ℚ) (w b : Nat)
    (z : List Pixel) (i j i2 j2 : Nat) (hne : i * w + j ≠ i2 * w + j2) :
    updatePixel C D w b (updatePixel C D w b z i j) i2 j2 =
      updatePixel C D w b (updatePixel C D w b z i2 j2) i j := by
  apply List.ext_getElem?
  intro k
  simp only [updatePixel_getElem?]
  by_cases h1 : k = i * w + j
  · have h2 : k ≠ i2 * w + j2 := fun h => hne (h1.symm.trans h)
    simp [h1, hne]
  · by_cases h2 : k = i2 * w + j2
    · simp [h2, Ne.symm hne]
    · simp [h1, h2]

theorem foldl_nested_eq_product {α β : Type} (f : List Pixel → α → β → List Pixel)
    (l₁ : List α) (l₂ : List β) (z : List Pixel) :
    l₁.foldl (fun z a => l₂.foldl (fun z c => f z a c) z) z =
      (List.product l₁ l₂).foldl (fun z v => f z v.1 v.2) z := by
  induction l₁ generalizing z with
  | nil => rfl
  | cons a l₁ ih =>
    have hcons : List.product (a :: l₁) l₂ =
        List.map (fun c => (a, c)) l₂ ++ List.product l₁ l₂ := List.product_cons a l₁ l₂
    rw [hcons, List.foldl_append, List.foldl_map, List.foldl_cons, ih]

theorem framePass_eq_visitPass (C : Nat → Nat → Int) (D : Nat → Nat → ℚ) (w b : Nat)
    (z : List Pixel) :
    framePass C D w b z =
      visitPass C D w b (List.product (List.range w) (List.range w)) z := by
  unfold framePass rowPass visitPass
  exact foldl_nested_eq_product (fun z i j => updatePixel C D w b z i j) _ _ z

theorem cell_injective {w i j i2 j2 : Nat} (hj : j < w) (hj2 : j2 < w)
    (h : i * w + j = i2 * w + j2) : i = i2 ∧ j = j2 := by
  have h1 := cell_div_mod (i := i) hj
  have h2 := cell_div_mod (i := i2) hj2
  rw [h] at h1
  exact ⟨h1.1.symm.trans h2.1, h1.2.symm.trans h2.2⟩

theorem visitPass_perm (C : Nat → Nat → Int) (D : Nat → Nat → ℚ) (w b : Nat)
    (order : List (Nat × Nat)) (z : List Pixel) (hnodup : order.Nodup)
    (hmem : ∀ v : Nat × Nat, v ∈ order ↔ v.1 < w ∧ v.2 < w) :
    visitPass C D w b order z = framePass C D w b z := by
  rw [framePass_eq_visitPass]
  have hperm : order.Perm (List.product (List.range w) (List.range w)) := by
    apply (List.perm_ext_iff_of_nodup hnodup
      (List.Nodup.product (List.nodup_range w) (List.nodup_range w))).mpr
    rintro ⟨i, j⟩
    rw [hmem, List.mem_product, List.mem_range, List.mem_range]
  unfold visitPass
  apply List.Perm.foldl_eq' hperm
  rintro ⟨i, j⟩ hx ⟨i2, j2⟩ hy z
  by_cases heq : i * w + j = i2 * w + j2
  · have hj := ((hmem (i, j)).mp hx).2
    have hj2 := ((hmem (i2, j2)).mp hy).2
    obtain ⟨e1, e2⟩ := cell_injective hj hj2 heq
    simp only at e1 e2
    subst e1
    subst e2
    rfl
  · exact updatePixel_comm C D w b z i j i2 j2 heq

/-! ### Whole-buffer consequences -/

theorem cell_decompose {w k : Nat} (hk : k < w * w) :
    k / w < w ∧ k % w < w ∧ k / w * w + k % w = k := by
  have hw : 0 < w := by
    rcases Nat.eq_zero_or_pos w with h0 | h0
    · subst h0; simp at hk
    · exact h0
  refine ⟨(Nat.div_lt_iff_lt_mul hw).mpr hk, Nat.mod_lt k hw, ?_⟩
  rw [Nat.mul_comm]
  exact Nat.div_add_mod k w

theorem framePass_depth_le (C : Nat → Nat → Int) (D : Nat → Nat → ℚ) (w b : Nat)
    (z : List Pixel) :
    List.Forall₂ (fun after before : Pixel => after.depth ≤ before.depth)
      (framePass C D w b z) z := by
  rw [List.forall₂_iff_get]
  refine ⟨framePass_length C D w b z, ?_⟩
  intro k h1 h2
  have e := framePass_getElem? C D w b z k
  rw [List.getElem?_eq_getElem h1, List.getElem?_eq_getElem h2] at e
  simp only [List.get_eq_getElem]
  split at e
  · simp only [Option.map_some', Option.some.injEq] at e
    rw [e, pixelStep_depth]
    exact min_le_right _ _
  · simp only [Option.some.injEq] at e
    rw [e]

theorem framePass_eq_self (C : Nat → Nat → Int) (D : Nat → Nat → ℚ) (w b : Nat)
    (z : List Pixel)
    (hno : ∀ i j p, i < w → j < w → z[i * w + j]? = some p → p.depth ≤ D i ((j + b) % MAX)) :
    framePass C D w b z = z := by
  apply List.ext_getElem?
  intro k
  rw [framePass_getElem?]
  split
  · rename_i hk
    obtain ⟨hi, hj, hsum⟩ := cell_decompose hk
    cases hz : z[k]? with
    | none => rfl
    | some p =>
      have hz2 : z[k / w * w + k % w]? = some p := by rw [hsum]; exact hz
      simp [pixelStep_of_le _ _ p (hno (k / w) (k % w) p hi hj hz2)]
  · rfl

theorem framePass_idem (C : Nat → Nat → Int) (D : Nat → Nat → ℚ) (w b : Nat)
    (z : List Pixel) :
    framePass C D w b (framePass C D w b z) = framePass C D w b z := by
  apply List.ext_getElem?
  intro k
  rw [framePass_getElem? C D w b (framePass C D w b z) k, framePass_getElem? C D w b z k]
  split
  · cases z[k]? with
    | none => rfl
    | some p => simp [pixelStep_idem]
  · rfl

theorem framePass_first (C : Nat → Nat → Int) (D : Nat → Nat → ℚ) (w : Nat) (hw : w ≤ MAX)
    (hD : ∀ i j, i < w → j < w → D i ((j + 0) % MAX) < 1) :
    framePass C D w 0 (List.replicate (w * w) ⟨0, 1⟩) =
      (List.range (w * w)).map (fun k => (⟨C (k / w) (k % w), D (k / w) (k % w)⟩ : Pixel)) := by
  apply List.ext_getElem?
  intro k
  rw [framePass_getElem?, List.getElem?_map, List.getElem?_replicate]
  by_cases hk : k < w * w
  · obtain ⟨hi, hj, _⟩ := cell_decompose hk
    have hmod : (k % w + 0) % MAX = k % w := Nat.mod_eq_of_lt (by omega)
    have hlt := hD (k / w) (k % w) hi hj
    rw [hmod] at hlt
    rw [if_pos hk, if_pos hk, List.getElem?_range hk, hmod]
    simp [pixelStep, hlt]
  · rw [if_neg hk, if_neg hk, List.getElem?_eq_none (by simpa using hk)]
    rfl

/-! ### The claims about the kernel of `PixelPainters.cpp` -/

/-- C1 (minimum so far): for a buffer of `w*w` pixels that all start with depth `1`, after
the frame passes `b = 0, ..., n` the depth stored at index `i*w+j` is the minimum of `1`
and of the depths `randArrD[i][(j+b) % MAX]` offered in the frames `b = 0, ..., n`. -/
theorem minimum_so_far (randArrC : Nat → Nat → Int) (randArrD : Nat → Nat → ℚ)
    (w n : Nat) (zbuffer : List Pixel) (i j : Nat) (_hw : w ≤ MAX)
    (hlen : zbuffer.length = w * w) (hinit : ∀ p ∈ zbuffer, p.depth = 1)
    (hi : i < w) (hj : j < w) :
    ((runFrames randArrC randArrD w (n + 1) zbuffer)[i * w + j]?).map Pixel.depth =
      some (min 1 ((Finset.range (n + 1)).inf' Finset.nonempty_range_succ
        (fun b => randArrD i ((j + b) % MAX)))) := by
  have hk : i * w + j < zbuffer.length := by rw [hlen]; exact cell_lt hi hj
  rw [runFrames_cell randArrC randArrD w (n + 1) zbuffer hi hj, List.getElem?_eq_getElem hk]
  simp only [Option.map_some', Option.some.injEq]
  rw [pixelAfter_depth_eq_min, hinit _ (List.getElem_mem hk)]

/-- Instance of C1: width 2, frames 0 and 1 of the scenario streams, pixel (1, 0). -/
theorem minimum_so_far_witness :
    ((runFrames scenarioC scenarioD 2 (1 + 1) (List.replicate (2 * 2) ⟨0, 1⟩))[1 * 2 + 0]?).map
        Pixel.depth =
      some (min 1 ((Finset.range (1 + 1)).inf' Finset.nonempty_range_succ
        (fun b => scenarioD 1 ((0 + b) % MAX)))) :=
  minimum_so_far scenarioC scenarioD 2 1 (List.replicate (2 * 2) ⟨0, 1⟩) 1 0 (by decide)
    (by simp) (by intro p hp; rw [List.eq_of_mem_replicate hp]) (by decide) (by decide)

/-- C2 (colour consistency, earliest frame wins a tie): starting from the `w x w` buffer whose
pixels are all `(0, 1)`, after the passes `b = 0, ..., n` the pixel `(i, j)` is either the
untouched `(0, 1)`, and then no offered depth was below `1`, or it is exactly the pair
`(randArrC[i][k], randArrD[i][k])`, `k = (j + bs) % MAX`, of one frame `bs <= n` whose
offered depth is below `1`, is least among the offers of the frames `0, ..., n` and is
strictly below every offer of an earlier frame. -/
theorem colour_consistency (randArrC : Nat → Nat → Int) (randArrD : Nat → Nat → ℚ)
    (w n i j : Nat) (hi : i < w) (hj : j < w) :
    ((∀ b, b ≤ n → 1 ≤ randArrD i ((j + b) % MAX)) ∧
        (runFrames randArrC randArrD w (n + 1) (List.replicate (w * w) ⟨0, 1⟩))[i * w + j]? =
          some ⟨0, 1⟩) ∨
      ∃ bs, bs ≤ n ∧ randArrD i ((j + bs) % MAX) < 1 ∧
        (∀ b, b ≤ n → randArrD i ((j + bs) % MAX) ≤ randArrD i ((j + b) % MAX)) ∧
        (∀ b, b < bs → randArrD i ((j + bs) % MAX) < randArrD i ((j + b) % MAX)) ∧
        (runFrames randArrC randArrD w (n + 1) (List.replicate (w * w) ⟨0, 1⟩))[i * w + j]? =
          some ⟨randArrC i ((j + bs) % MAX), randArrD i ((j + bs) % MAX)⟩ := by
  have hcell : (runFrames randArrC randArrD w (n + 1)
      (List.replicate (w * w) ⟨0, 1⟩))[i * w + j]? =
      some (pixelAfter randArrC randArrD i j (n + 1) ⟨0, 1⟩) := by
    rw [runFrames_cell randArrC randArrD w (n + 1) _ hi hj, List.getElem?_replicate,
      if_pos (cell_lt hi hj)]
    rfl
  rw [hcell]
  rcases pixelAfter_init randArrC randArrD i j (n + 1) with ⟨hall, hp⟩ | ⟨bs, hbs, h1, h2, h3, hp⟩
  · left
    exact ⟨fun b hb => hall b (Nat.lt_succ_of_le hb), by rw [hp]⟩
  · right
    exact ⟨bs, Nat.le_of_lt_succ hbs, h1, fun b hb => h2 b (Nat.lt_succ_of_le hb), h3,
      by rw [hp]⟩

/-- Instance of C2: width 2, frames 0 and 1 of the scenario streams, pixel (0, 1). -/
theorem colour_consistency_witness :
    ((∀ b, b ≤ 1 → 1 ≤ scenarioD 0 ((1 + b) % MAX)) ∧
        (runFrames scenarioC scenarioD 2 (1 + 1) (List.replicate (2 * 2) ⟨0, 1⟩))[0 * 2 + 1]? =
          some ⟨0, 1⟩) ∨
      ∃ bs, bs ≤ 1 ∧ scenarioD 0 ((1 + bs) % MAX) < 1 ∧
        (∀ b, b ≤ 1 → scenarioD 0 ((1 + bs) % MAX) ≤ scenarioD 0 ((1 + b) % MAX)) ∧
        (∀ b, b < bs → scenarioD 0 ((1 + bs) % MAX) < scenarioD 0 ((1 + b) % MAX)) ∧
        (runFrames scenarioC scenarioD 2 (1 + 1) (List.replicate (2 * 2) ⟨0, 1⟩))[0 * 2 + 1]? =
          some ⟨scenarioC 0 ((1 + bs) % MAX), scenarioD 0 ((1 + bs) % MAX)⟩ :=
  colour_consistency scenarioC scenarioD 2 1 0 1 (by decide) (by decide)

/-! ### The kernel on `float` depths -/

theorem FloatVal.le_of_lt (x y : FloatVal) (h : FloatVal.lt x y = true) :
    FloatVal.le x y = true := by
  cases x <;> cases y <;> simp [FloatVal.lt] at h <;> simp [FloatVal.le]
  exact h.le

theorem FloatVal.ne_nan_of_lt (x y : FloatVal) (h : FloatVal.lt x y = true) :
    x ≠ FloatVal.nan := by
  cases x <;> cases y <;> simp [FloatVal.lt] at h <;> simp

theorem FloatVal.le_self (x : FloatVal) (h : x ≠ FloatVal.nan) : FloatVal.le x x = true := by
  cases x <;> simp [FloatVal.le] at h ⊢

theorem FloatVal.le_nan (x : FloatVal) : FloatVal.le x FloatVal.nan = false := by
  cases x <;> rfl

theorem FloatVal.lt_nan (x : FloatVal) : FloatVal.lt x FloatVal.nan = false := by
  cases x <;> rfl

theorem pixelStepF_depth_le (c : Int) (d : FloatVal) (p : FPixel) (hp : p.depth ≠ FloatVal.nan) :
    FloatVal.le (pixelStepF c d p).depth p.depth = true ∧
      (pixelStepF c d p).depth ≠ FloatVal.nan := by
  unfold pixelStepF
  by_cases h : FloatVal.lt d p.depth = true
  · rw [if_pos h]
    exact ⟨FloatVal.le_of_lt _ _ h, FloatVal.ne_nan_of_lt _ _ h⟩
  · rw [if_neg h]
    exact ⟨FloatVal.le_self _ hp, hp⟩

theorem pixelStepF_nan (c : Int) (d : FloatVal) (p : FPixel) (hp : p.depth = FloatVal.nan) :
    pixelStepF c d p = p := by
  unfold pixelStepF
  rw [hp, FloatVal.lt_nan]
  simp

theorem pixelStepF_toFPixel (c : Int) (d : ℚ) (p : Pixel) :
    pixelStepF c (FloatVal.num d) (toFPixel p) = toFPixel (pixelStep c d p) := by
  unfold pixelStepF pixelStep toFPixel
  by_cases h : d < p.depth
  · simp [FloatVal.lt, h]
  · simp [FloatVal.lt, h]

theorem updatePixelF_getElem? (C : Nat → Nat → Int) (D : Nat → Nat → FloatVal) (w b : Nat)
    (z : List FPixel) (i j k : Nat) :
    (updatePixelF C D w b z i j)[k]? =
      if k = i * w + j then
        (z[k]?).map (pixelStepF (C i ((j + b) % MAX)) (D i ((j + b) % MAX)))
      else z[k]? := by
  unfold updatePixelF
  simp only
  cases hz : z[i * w + j]? with
  | none =>
    by_cases hk : k = i * w + j
    · subst hk; simp [hz]
    · simp [hk]
  | some p =>
    have hlt : i * w + j < z.length := by
      by_contra hge
      rw [List.getElem?_eq_none (by omega)] at hz
      cases hz
    by_cases hk : k = i * w + j
    · subst hk
      by_cases hd : FloatVal.lt (D i ((j + b) % MAX)) p.depth = true
      · simp [hz, hd, pixelStepF, List.getElem?_set_self hlt]
      · simp [hz, hd, pixelStepF]
    · by_cases hd : FloatVal.lt (D i ((j + b) % MAX)) p.depth = true
      · simp [hd, hk, List.getElem?_set_ne (Ne.symm hk)]
      · simp [hd, hk]

/-- Closed form of a row-major nested loop whose body touches only the cell `i*w+j`. -/
theorem nestedLoop_getElem? {α : Type} (upd : List α → Nat → Nat → List α)
    (g : Nat → Nat → α → α) (w : Nat)
    (hupd : ∀ (z : List α) (i j k : Nat),
      (upd z i j)[k]? = if k = i * w + j then (z[k]?).map (g i j) else z[k]?)
    (z : List α) (k : Nat) :
    ((List.range w).foldl (fun y i => (List.range w).foldl (fun y j => upd y i j) y) z)[k]? =
      if k < w * w then (z[k]?).map (g (k / w) (k % w)) else z[k]? := by
  have hrow : ∀ (i m : Nat) (y : List α),
      ((List.range m).foldl (fun y j => upd y i j) y)[k]? =
        if i * w ≤ k ∧ k < i * w + m then (y[k]?).map (g i (k - i * w)) else y[k]? := by
    intro i m
    induction m with
    | zero =>
      intro y
      have h0 : ¬ (i * w ≤ k ∧ k < i * w + 0) := by omega
      rw [if_neg h0]
      rfl
    | succ m ih =>
      intro y
      rw [List.range_succ, List.foldl_append]
      simp only [List.foldl_cons, List.foldl_nil]
      rw [hupd, ih]
      by_cases hk : k = i * w + m
      · subst hk
        simp
      · by_cases hr : i * w ≤ k ∧ k < i * w + m
        · have hr2 : i * w ≤ k ∧ k < i * w + (m + 1) := ⟨hr.1, by omega⟩
          simp [hk, hr, hr2]
        · have hr2 : ¬ (i * w ≤ k ∧ k < i * w + (m + 1)) := by
            intro h
            exact hr ⟨h.1, by omega⟩
          simp [hk, hr, hr2]
  have hrows : ∀ (m : Nat) (y : List α),
      ((List.range m).foldl (fun y i => (List.range w).foldl (fun y j => upd y i j) y) y)[k]? =
        if k < m * w then (y[k]?).map (g (k / w) (k % w)) else y[k]? := by
    intro m
    induction m with
    | zero =>
      intro y
      simp
    | succ m ih =>
      intro y
      rw [List.range_succ, List.foldl_append]
      simp only [List.foldl_cons, List.foldl_nil]
      rw [hrow, ih]
      have hmul : (m + 1) * w = m * w + w := by ring
      by_cases hlo : k < m * w
      · have h1 : ¬ (m * w ≤ k ∧ k < m * w + w) := by omega
        have h2 : k < (m + 1) * w := by omega
        simp [hlo, h1, h2]
      · by_cases hhi : k < m * w + w
        · have h1 : m * w ≤ k ∧ k < m * w + w := ⟨by omega, hhi⟩
          have h2 : k < (m + 1) * w := by omega
          have hwpos : 0 < w := by
            rcases Nat.eq_zero_or_pos w with h0 | h0
            · subst h0; omega
            · exact h0
          have hdiv : k / w = m := by
            apply Nat.div_eq_of_lt_le
            · simpa using h1.1
            · simpa [hmul] using hhi
          have hmod : k % w = k - m * w := by
            have h3 := Nat.div_add_mod k w
            rw [hdiv] at h3
            have h4 : w * m = m * w := Nat.mul_comm w m
            omega
          simp [hlo, h1, h2, hdiv, hmod]
        · have h1 : ¬ (m * w ≤ k ∧ k < m * w + w) := by omega
          have h2 : ¬ k < (m + 1) * w := by omega
          simp [hlo, h1, h2]
  exact hrows w z

/-- Closed form of one frame pass on `float` depths. -/
theorem framePassF_getElem? (C : Nat → Nat → Int) (D : Nat → Nat → FloatVal) (w b : Nat)
    (z : List FPixel) (k : Nat) :
    (framePassF C D w b z)[k]? =
      if k < w * w then
        (z[k]?).map
          (pixelStepF (C (k / w) ((k % w + b) % MAX)) (D (k / w) ((k % w + b) % MAX)))
      else z[k]? :=
  nestedLoop_getElem? (fun y i j => updatePixelF C D w b y i j)
    (fun i j => pixelStepF (C i ((j + b) % MAX)) (D i ((j + b) % MAX))) w
    (fun y i j k => updatePixelF_getElem? C D w b y i j k) z k

theorem framePassF_length (C : Nat → Nat → Int) (D : Nat → Nat → FloatVal) (w b : Nat)
    (z : List FPixel) : (framePassF C D w b z).length = z.length := by
  rcases Nat.lt_trichotomy (framePassF C D w b z).length z.length with hlt | heq | hgt
  · have h := framePassF_getElem? C D w b z (framePassF C D w b z).length
    rw [List.getElem?_eq_none (Nat.le_refl _), List.getElem?_eq_getElem hlt] at h
    split at h <;> simp at h
  · exact heq
  · have h := framePassF_getElem? C D w b z z.length
    rw [List.getElem?_eq_none (Nat.le_refl z.length), List.getElem?_eq_getElem hgt] at h
    split at h <;> simp at h

theorem framePassF_not_nan (C : Nat → Nat → Int) (D : Nat → Nat → FloatVal) (w b : Nat)
    (z : List FPixel) (hnan : ∀ p ∈ z, p.depth ≠ FloatVal.nan) :
    ∀ q ∈ framePassF C D w b z, q.depth ≠ FloatVal.nan := by
  intro q hq
  obtain ⟨k, hk⟩ := List.mem_iff_getElem?.mp hq
  rw [framePassF_getElem?] at hk
  cases hz : z[k]? with
  | none => simp [hz] at hk
  | some p =>
    have hp := hnan p (List.getElem?_mem hz)
    rw [hz] at hk
    split at hk
    · simp only [Option.map_some', Option.some.injEq] at hk
      rw [← hk]
      exact (pixelStepF_depth_le _ _ p hp).2
    · simp only [Option.some.injEq] at hk
      rw [← hk]
      exact hp

theorem framePassF_depth_le (C : Nat → Nat → Int) (D : Nat → Nat → FloatVal) (w b : Nat)
    (z : List FPixel) (hnan : ∀ p ∈ z, p.depth ≠ FloatVal.nan) :
    List.Forall₂ (fun after before : FPixel => FloatVal.le after.depth before.depth = true)
      (framePassF C D w b z) z := by
  rw [List.forall₂_iff_get]
  refine ⟨framePassF_length C D w b z, ?_⟩
  intro k h1 h2
  have e := framePassF_getElem? C D w b z k
  rw [List.getElem?_eq_getElem h1, List.getElem?_eq_getElem h2] at e
  simp only [List.get_eq_getElem]
  have hp := hnan z[k] (List.getElem_mem h2)
  split at e
  · simp only [Option.map_some', Option.some.injEq] at e
    rw [e]
    exact (pixelStepF_depth_le _ _ _ hp).1
  · simp only [Option.some.injEq] at e
    rw [e]
    exact FloatVal.le_self _ hp

theorem runFramesF_succ (C : Nat → Nat → Int) (D : Nat → Nat → FloatVal) (w n : Nat)
    (z : List FPixel) :
    runFramesF C D w (n + 1) z = framePassF C D w n (runFramesF C D w n z) := by
  simp [runFramesF, List.range_succ, List.foldl_append]

theorem runFramesF_not_nan (C : Nat → Nat → Int) (D : Nat → Nat → FloatVal) (w n : Nat)
    (z : List FPixel) (hnan : ∀ p ∈ z, p.depth ≠ FloatVal.nan) :
    ∀ q ∈ runFramesF C D w n z, q.depth ≠ FloatVal.nan := by
  induction n with
  | zero => simpa [runFramesF] using hnan
  | succ n ih =>
    rw [runFramesF_succ]
    exact framePassF_not_nan C D w n _ ih

/-- On numbers the kernel with `float` depths is the kernel with rational depths: a frame
pass commutes with reading the rational pixels as `float` pixels. -/
theorem framePassF_toFPixel (C : Nat → Nat → Int) (D : Nat → Nat → ℚ) (w b : Nat)
    (z : List Pixel) :
    framePassF C (fun i j => FloatVal.num (D i j)) w b (z.map toFPixel) =
      (framePass C D w b z).map toFPixel := by
  apply List.ext_getElem?
  intro k
  rw [framePassF_getElem?, List.getElem?_map, List.getElem?_map, framePass_getElem?]
  split
  · cases z[k]? with
    | none => rfl
    | some p => simp [pixelStepF_toFPixel]
  · rfl

/-- C3, the claim at a NaN depth: for the first sweep width `w = 100`, storage whose cells
all hold `(0, NaN)` and candidates that all are `(5, 0.5)`, the pass of frame 0 leaves cell
0 at `(0, NaN)`, the test `0.5 < NaN` being false, and `NaN <= NaN` is false: the depths
after the pass are not all less than or equal to the depths before. -/
theorem depth_monotone_fails_at_nan :
    (framePassF (fun _ _ => 5) (fun _ _ => FloatVal.num (1 / 2)) 100 0
        (List.replicate (100 * 100) ⟨0, FloatVal.nan⟩))[0]? = some ⟨0, FloatVal.nan⟩ ∧
      FloatVal.le FloatVal.nan FloatVal.nan = false ∧
      ¬ List.Forall₂ (fun after before : FPixel => FloatVal.le after.depth before.depth = true)
        (framePassF (fun _ _ => 5) (fun _ _ => FloatVal.num (1 / 2)) 100 0
          (List.replicate (100 * 100) ⟨0, FloatVal.nan⟩))
        (List.replicate (100 * 100) ⟨0, FloatVal.nan⟩) := by
  have hcell : (framePassF (fun _ _ => 5) (fun _ _ => FloatVal.num (1 / 2)) 100 0
      (List.replicate (100 * 100) ⟨0, FloatVal.nan⟩))[0]? = some ⟨0, FloatVal.nan⟩ := by
    rw [framePassF_getElem?, if_pos (by decide), List.getElem?_replicate, if_pos (by decide),
      Option.map_some', pixelStepF_nan _ _ _ rfl]
  refine ⟨hcell, rfl, ?_⟩
  intro hall
  rw [List.forall₂_iff_get] at hall
  obtain ⟨hlen, hget⟩ := hall
  have h2 : 0 < (List.replicate (100 * 100) (⟨0, FloatVal.nan⟩ : FPixel)).length := by
    rw [List.length_replicate]
    decide
  have h1 : 0 < (framePassF (fun _ _ => 5) (fun _ _ => FloatVal.num (1 / 2)) 100 0
      (List.replicate (100 * 100) ⟨0, FloatVal.nan⟩)).length := by rw [hlen]; exact h2
  have h := hget 0 h1 h2
  simp only [List.get_eq_getElem, List.getElem_replicate] at h
  rw [FloatVal.le_nan] at h
  cases h

/-- C3 as amended (monotonic depth without NaN): for every width `w <= MAX`, every content
of the `w*w` buffer whose stored depths are not NaN, all candidate streams (NaN candidates
included) and every frame `b`, one frame pass leaves each pixel with a depth less than or
equal, as `float` values, to its depth before the pass; hence for every `n` the depths
after frame `n` are, pixel by pixel, less than or equal to the depths after frame `n-1`. -/
theorem depth_monotone_of_not_nan (randArrC : Nat → Nat → Int)
    (randArrD : Nat → Nat → FloatVal) (w b : Nat) (zbuffer : List FPixel) (_hw : w ≤ MAX)
    (_hlen : zbuffer.length = w * w) (hnan : ∀ p ∈ zbuffer, p.depth ≠ FloatVal.nan) :
    List.Forall₂ (fun after before : FPixel => FloatVal.le after.depth before.depth = true)
        (framePassF randArrC randArrD w b zbuffer) zbuffer ∧
      ∀ n, List.Forall₂
        (fun after before : FPixel => FloatVal.le after.depth before.depth = true)
        (runFramesF randArrC randArrD w (n + 1) zbuffer)
        (runFramesF randArrC randArrD w n zbuffer) := by
  refine ⟨framePassF_depth_le randArrC randArrD w b zbuffer hnan, ?_⟩
  intro n
  rw [runFramesF_succ]
  exact framePassF_depth_le randArrC randArrD w n _
    (runFramesF_not_nan randArrC randArrD w n zbuffer hnan)

/-- Instance of C3 as amended: width 2, the scenario streams on the buffer whose pixels are
all `(0, 1)`; the pass of frame 0 writes all four cells. -/
theorem depth_monotone_of_not_nan_witness :
    List.Forall₂ (fun after before : FPixel => FloatVal.le after.depth before.depth = true)
        (framePassF scenarioC scenarioDF 2 0 (List.replicate (2 * 2) ⟨0, FloatVal.num 1⟩))
        (List.replicate (2 * 2) ⟨0, FloatVal.num 1⟩) ∧
      ∀ n, List.Forall₂
        (fun after before : FPixel => FloatVal.le after.depth before.depth = true)
        (runFramesF scenarioC scenarioDF 2 (n + 1) (List.replicate (2 * 2) ⟨0, FloatVal.num 1⟩))
        (runFramesF scenarioC scenarioDF 2 n (List.replicate (2 * 2) ⟨0, FloatVal.num 1⟩)) :=
  depth_monotone_of_not_nan scenarioC scenarioDF 2 0 (List.replicate (2 * 2) ⟨0, FloatVal.num 1⟩)
    (by decide) (by simp) (by
      intro p hp
      rw [List.eq_of_mem_replicate hp]
      simp)

/-- C4 (a pass that beats nothing changes nothing): if for every pixel `(i, j)` the candidate
depth `randArrD[i][(j+b) % MAX]` is greater than or equal to the stored depth, the frame
pass returns the buffer exactly as it was, colours and depths; a candidate whose depth
equals the stored depth is included, so it never replaces the colour. -/
theorem no_beat_unchanged (randArrC : Nat → Nat → Int) (randArrD : Nat → Nat → ℚ)
    (w b : Nat) (zbuffer : List Pixel)
    (hno : ∀ i j p, i < w → j < w → zbuffer[i * w + j]? = some p →
      p.depth ≤ randArrD i ((j + b) % MAX)) :
    framePass randArrC randArrD w b zbuffer = zbuffer :=
  framePass_eq_self randArrC randArrD w b zbuffer hno

/-- Instance of C4: a frame whose candidates all have depth `1`, applied to the buffer
`[(5,0.3),(2,0.9),(7,0.1),(3,0.5)]`, leaves it unchanged. -/
theorem no_beat_unchanged_witness :
    framePass scenarioC (fun _ _ => 1) 2 1 scenarioBuffer = scenarioBuffer :=
  no_beat_unchanged scenarioC (fun _ _ => 1) 2 1 scenarioBuffer (by
    intro i j p hi hj
    interval_cases i <;> interval_cases j <;> simp [scenarioBuffer] <;> rintro rfl <;>
      norm_num)

/-- C5 (idempotence of a frame pass): for every width `w <= MAX`, every content of the
`w*w` buffer, all streams and every frame `b`, applying the pass for frame `b` twice in a
row gives exactly the buffer that applying it once gives. -/
theorem frame_pass_idempotent (randArrC : Nat → Nat → Int) (randArrD : Nat → Nat → ℚ)
    (w b : Nat) (zbuffer : List Pixel) (_hw : w ≤ MAX) (_hlen : zbuffer.length = w * w) :
    framePass randArrC randArrD w b (framePass randArrC randArrD w b zbuffer) =
      framePass randArrC randArrD w b zbuffer :=
  framePass_idem randArrC randArrD w b zbuffer

/-- Instance of C5: width 2, frame 3 of the scenario streams on the scenario buffer. -/
theorem frame_pass_idempotent_witness :
    framePass scenarioC scenarioD 2 3 (framePass scenarioC scenarioD 2 3 scenarioBuffer) =
      framePass scenarioC scenarioD 2 3 scenarioBuffer :=
  frame_pass_idempotent scenarioC scenarioD 2 3 scenarioBuffer (by decide) (by decide)

/-- C6 (order independence): for every width `w <= MAX`, every content of the `w*w` buffer,
all streams and every frame `b`, applying the per-pixel update along any enumeration that
visits each `(i, j)` of `[0,w) x [0,w)` exactly once gives the same buffer as the
row-major nested loop. -/
theorem order_independent (randArrC : Nat → Nat → Int) (randArrD : Nat → Nat → ℚ)
    (w b : Nat) (zbuffer : List Pixel) (order : List (Nat × Nat)) (_hw : w ≤ MAX)
    (_hlen : zbuffer.length = w * w) (hnodup : order.Nodup)
    (hmem : ∀ v : Nat × Nat, v ∈ order ↔ v.1 < w ∧ v.2 < w) :
    visitPass randArrC randArrD w b order zbuffer =
      framePass randArrC randArrD w b zbuffer :=
  visitPass_perm randArrC randArrD w b order zbuffer hnodup hmem

/-- Instance of C6: width 2, the visits in the order (1,1), (0,0), (1,0), (0,1). -/
theorem order_independent_witness :
    visitPass scenarioC scenarioD 2 0 [(1, 1), (0, 0), (1, 0), (0, 1)]
        (List.replicate (2 * 2) ⟨0, 1⟩) =
      framePass scenarioC scenarioD 2 0 (List.replicate (2 * 2) ⟨0, 1⟩) :=
  order_independent scenarioC scenarioD 2 0 (List.replicate (2 * 2) ⟨0, 1⟩)
    [(1, 1), (0, 0), (1, 0), (0, 1)] (by decide) (by simp) (by decide) (by
      rintro ⟨a, c⟩
      simp only [List.mem_cons, Prod.mk.injEq, List.mem_singleton, List.not_mem_nil, or_false]
      omega)

/-- C7 (first frame): for every width `w <= MAX`, if every pixel starts at `(0, 1)` and
every candidate depth read in frame `b = 0` is strictly below `1`, then after that single
pass the buffer is the list of the candidates in row-major order: pixel `(i, j)` holds
exactly `(randArrC[i][j], randArrD[i][j])` for all `i, j < w`. -/
theorem first_frame (randArrC : Nat → Nat → Int) (randArrD : Nat → Nat → ℚ) (w : Nat)
    (hw : w ≤ MAX) (hD : ∀ i j, i < w → j < w → randArrD i ((j + 0) % MAX) < 1) :
    framePass randArrC randArrD w 0 (List.replicate (w * w) ⟨0, 1⟩) =
        (List.range (w * w)).map
          (fun k => (⟨randArrC (k / w) (k % w), randArrD (k / w) (k % w)⟩ : Pixel)) ∧
      ∀ i j, i < w → j < w →
        (framePass randArrC randArrD w 0 (List.replicate (w * w) ⟨0, 1⟩))[i * w + j]? =
          some ⟨randArrC i j, randArrD i j⟩ := by
  have hall := framePass_first randArrC randArrD w hw hD
  refine ⟨hall, ?_⟩
  intro i j hi hj
  rw [hall, List.getElem?_map, List.getElem?_range (cell_lt hi hj),
    Option.map_some', (cell_div_mod hj).1, (cell_div_mod hj).2]

/-- Instance of C7: `w = 2` with the candidates `(0.3,5), (0.9,2), (0.1,7), (0.5,3)` gives
the buffer `[(5,0.3), (2,0.9), (7,0.1), (3,0.5)]`. -/
theorem first_frame_witness :
    framePass scenarioC scenarioD 2 0 (List.replicate (2 * 2) ⟨0, 1⟩) = scenarioBuffer :=
  (first_frame scenarioC scenarioD 2 (by decide) (by
    intro i j hi hj
    interval_cases i <;> interval_cases j <;> norm_num [scenarioD, MAX_eq])).1.trans
    (by simp [List.range_succ, scenarioC, scenarioD, scenarioBuffer])

theorem sweep_width_le_MAX {k : Nat} (hk : k ≤ ITERS) : DIM * 2 ^ k ≤ MAX := by
  have h : 2 ^ k ≤ 2 ^ ITERS := Nat.pow_le_pow_right (by decide) hk
  have h2 : DIM * 2 ^ k ≤ DIM * 2 ^ ITERS := Nat.mul_le_mul_left DIM h
  have h3 : DIM * 2 ^ ITERS = MAX := by decide
  omega

theorem cell_bijOn (w : Nat) :
    Set.BijOn (fun v : Nat × Nat => v.1 * w + v.2) {v | v.1 < w ∧ v.2 < w}
      {c | c < w * w} := by
  refine ⟨?_, ?_, ?_⟩
  · rintro ⟨i, j⟩ ⟨hi, hj⟩
    exact cell_lt hi hj
  · rintro ⟨i, j⟩ ⟨_, hj⟩ ⟨i2, j2⟩ ⟨_, hj2⟩ h
    obtain ⟨e1, e2⟩ := cell_injective hj hj2 h
    simp only at e1 e2
    rw [e1, e2]
  · intro c hc
    obtain ⟨hi, hj, hsum⟩ := cell_decompose hc
    exact ⟨(c / w, c % w), ⟨hi, hj⟩, hsum⟩

/-- C10 (in-bounds, collision-free addressing): for every sweep width `w = DIM * 2^k` with
`k <= ITERS`, every frame `b < FPS` and all `i, j < w`, the buffer index `i*w+j` is below
`w*w`, the stream indices `i` and `(j+b) % MAX` are below `MAX`, and `(i, j) -> i*w+j` is a
bijection from `[0,w) x [0,w)` onto `[0, w*w)`; moreover `w*w` and `j+b` stay below `2^31`,
so the `int` expressions do not wrap. -/
theorem addressing_in_bounds (k b i j : Nat) (hk : k ≤ ITERS) (hb : b < FPS)
    (hi : i < DIM * 2 ^ k) (hj : j < DIM * 2 ^ k) :
    i * (DIM * 2 ^ k) + j < DIM * 2 ^ k * (DIM * 2 ^ k) ∧ i < MAX ∧ (j + b) % MAX < MAX ∧
      Set.BijOn (fun v : Nat × Nat => v.1 * (DIM * 2 ^ k) + v.2)
        {v | v.1 < DIM * 2 ^ k ∧ v.2 < DIM * 2 ^ k} {c | c < DIM * 2 ^ k * (DIM * 2 ^ k)} ∧
      DIM * 2 ^ k * (DIM * 2 ^ k) < 2 ^ 31 ∧ j + b < 2 ^ 31 := by
  have hw := sweep_width_le_MAX hk
  have hM : MAX = 12800 := MAX_eq
  have hF : FPS = 100 := rfl
  refine ⟨cell_lt hi hj, lt_of_lt_of_le hi hw, Nat.mod_lt _ (by rw [hM]; decide),
    cell_bijOn _, ?_, by omega⟩
  have hsq : DIM * 2 ^ k * (DIM * 2 ^ k) ≤ 12800 * 12800 :=
    Nat.mul_le_mul (by omega) (by omega)
  omega

/-- Instance of C10: the first sweep width `DIM * 2^0 = 100`, last frame, last pixel. -/
theorem addressing_in_bounds_witness :
    99 * (DIM * 2 ^ 0) + 99 < DIM * 2 ^ 0 * (DIM * 2 ^ 0) ∧ 99 < MAX ∧ (99 + 99) % MAX < MAX ∧
      Set.BijOn (fun v : Nat × Nat => v.1 * (DIM * 2 ^ 0) + v.2)
        {v | v.1 < DIM * 2 ^ 0 ∧ v.2 < DIM * 2 ^ 0} {c | c < DIM * 2 ^ 0 * (DIM * 2 ^ 0)} ∧
      DIM * 2 ^ 0 * (DIM * 2 ^ 0) < 2 ^ 31 ∧ 99 + 99 < 2 ^ 31 :=
  addressing_in_bounds 0 99 99 99 (by decide) (by decide) (by decide) (by decide)

/-! ### The missing initialisation of `PixelPainters.cpp` -/

theorem runFrames_getElem? (C : Nat → Nat → Int) (D : Nat → Nat → ℚ) (w n : Nat)
    (z : List Pixel) (k : Nat) :
    (runFrames C D w n z)[k]? =
      if k < w * w then (z[k]?).map (pixelAfter C D (k / w) (k % w) n) else z[k]? := by
  by_cases hk : k < w * w
  · obtain ⟨hi, hj, hsum⟩ := cell_decompose hk
    have h := runFrames_cell C D w n z hi hj
    rw [hsum] at h
    rw [if_pos hk, h]
  · rw [if_neg hk]
    induction n with
    | zero => simp [runFrames]
    | succ n ih => rw [runFrames_succ, framePass_getElem?, if_neg hk, ih]

theorem pixelAfter_of_le (C : Nat → Nat → Int) (D : Nat → Nat → ℚ) (i j n : Nat) (p : Pixel)
    (h : ∀ b, b < n → p.depth ≤ D i ((j + b) % MAX)) : pixelAfter C D i j n p = p := by
  induction n with
  | zero => simp [pixelAfter]
  | succ n ih =>
    rw [pixelAfter_succ, ih (fun b hb => h b (Nat.lt_succ_of_lt hb))]
    exact pixelStep_of_le _ _ p (h n (Nat.lt_succ_self n))

theorem pixelAfter_const (c : Int) (d : ℚ) (i j n : Nat) (p : Pixel) (h : d < p.depth) :
    pixelAfter (fun _ _ => c) (fun _ _ => d) i j (n + 1) p = ⟨c, d⟩ := by
  induction n with
  | zero =>
    rw [pixelAfter_succ]
    simp [pixelAfter, pixelStep, h]
  | succ n ih =>
    rw [pixelAfter_succ, ih]
    simp [pixelStep]

/-- C8, the code at a failing input: for the first sweep width `w = 100`, with candidates
that all are `(5, 0.5)`, an allocation whose cells hold `(0, 0.0)` comes out of the `FPS`
frame passes unchanged, no cell having been written, whereas a buffer that had been
set to `(0, 1)` comes out with `(5, 0.5)` in every cell: the result depends on what the
allocation held. -/
theorem sweepBody_depends_on_allocation :
    sweepBody (fun _ _ => 5) (fun _ _ => 1 / 2) 100 (List.replicate (100 * 100) ⟨0, 0⟩) =
        List.replicate (100 * 100) ⟨0, 0⟩ ∧
      sweepBody (fun _ _ => 5) (fun _ _ => 1 / 2) 100 (List.replicate (100 * 100) ⟨0, 1⟩) =
        List.replicate (100 * 100) ⟨5, 1 / 2⟩ := by
  constructor
  · apply List.ext_getElem?
    intro k
    unfold sweepBody
    rw [runFrames_getElem?, List.getElem?_replicate]
    by_cases hk : k < 100 * 100
    · rw [if_pos hk, if_pos hk, Option.map_some',
        pixelAfter_of_le _ _ _ _ _ _ (fun b _ => by norm_num)]
    · rw [if_neg hk]
  · apply List.ext_getElem?
    intro k
    unfold sweepBody
    rw [runFrames_getElem?, List.getElem?_replicate, List.getElem?_replicate]
    by_cases hk : k < 100 * 100
    · simp only [if_pos hk, Option.map_some']
      have hF : FPS = 99 + 1 := rfl
      rw [hF, pixelAfter_const 5 (1 / 2) _ _ 99 ⟨0, 1⟩ (by norm_num)]
    · simp only [if_neg hk]

/-! ### Candidate generation and the size loop of `PixelPainters.cpp` -/

theorem drawDepth_eq (r : Nat) :
    ∃ k : Nat, k ≤ 9 ∧ drawDepth r = (k : ℚ) / 10 :=
  ⟨r % 10, Nat.lt_succ_iff.mp (Nat.mod_lt r (by decide)), rfl⟩

theorem drawDepth_range (r : Nat) : 0 ≤ drawDepth r ∧ drawDepth r < 1 := by
  unfold drawDepth
  have h : r % 10 < 10 := Nat.mod_lt r (by decide)
  have h2 : ((r % 10 : Nat) : ℚ) < 10 := by exact_mod_cast h
  have h3 : (0 : ℚ) ≤ ((r % 10 : Nat) : ℚ) := Nat.cast_nonneg _
  constructor
  · exact div_nonneg h3 (by norm_num)
  · rw [div_lt_one (by norm_num)]
    exact h2

theorem drawColor_range (r : Nat) : 0 ≤ drawColor r ∧ drawColor r ≤ 9 := by
  unfold drawColor
  have h : r % 10 < 10 := Nat.mod_lt r (by decide)
  constructor
  · exact Int.natCast_nonneg _
  · have h2 : ((r % 10 : Nat) : Int) < 10 := by exact_mod_cast h
    omega

/-- C12 (candidate value ranges): for every value `r` returned by `rand()` the stored colour
`r % 10` is an integer in `[0, 9]` and the stored depth `(r % 10) / 10` is one of
`0/10, 1/10, ..., 9/10`, so it lies in `[0, 1)`; hence every cell of the generated colour
array is in `[0, 9]` and every cell of the generated depth array is in `[0, 1)`, strictly
below the initial depth `1`. -/
theorem candidate_value_ranges (draws : Nat → Nat) (r j k : Nat) :
    (0 ≤ drawColor r ∧ drawColor r ≤ 9) ∧
      (∃ t : Nat, t ≤ 9 ∧ drawDepth r = (t : ℚ) / 10) ∧
      (0 ≤ drawDepth r ∧ drawDepth r < 1) ∧
      (0 ≤ genRandArrC draws j k ∧ genRandArrC draws j k ≤ 9) ∧
      (0 ≤ genRandArrD draws j k ∧ genRandArrD draws j k < 1) :=
  ⟨drawColor_range r, drawDepth_eq r, drawDepth_range r, drawColor_range _, drawDepth_range _⟩

theorem sweepWidths_eq (extra : Nat) :
    sweepWidths (ITERS + 1 + extra) = [100, 200, 400, 800, 1600, 3200, 6400, 12800] := by
  have h : ITERS + 1 + extra = extra + 1 + 1 + 1 + 1 + 1 + 1 + 1 + 1 := by
    simp only [ITERS]
    omega
  rw [h]
  cases extra <;> simp [sweepWidths, sweepLoop, MAX_eq, DIM]

theorem sweepLoop_past_MAX (fuel : Nat) : sweepLoop fuel (MAX * 2) = [] := by
  cases fuel <;> simp [sweepLoop, MAX_eq]

/-- C13 (size-sweep coverage): with any fuel of at least `ITERS + 1` iterations the size
loop runs its body for exactly the widths `100, 200, 400, ..., 12800`, that is
`DIM * 2^k` for `k = 0, ..., ITERS`: it starts at `DIM`, doubles at each step, stays
`<= MAX`, ends with `MAX = DIM * 2^ITERS = 12800`, and from the next width `2 * MAX` on
the body runs no more. -/
theorem sweep_coverage (extra : Nat) :
    sweepWidths (ITERS + 1 + extra) = [100, 200, 400, 800, 1600, 3200, 6400, 12800] ∧
      sweepWidths (ITERS + 1 + extra) = (List.range (ITERS + 1)).map (fun k => DIM * 2 ^ k) ∧
      (sweepWidths (ITERS + 1 + extra)).head? = some DIM ∧
      (sweepWidths (ITERS + 1 + extra)).getLast? = some MAX ∧
      (∀ w ∈ sweepWidths (ITERS + 1 + extra), w ≤ MAX) ∧
      MAX = DIM * 2 ^ ITERS ∧ MAX = 12800 ∧ sweepLoop extra (MAX * 2) = [] := by
  rw [sweepWidths_eq]
  refine ⟨rfl, by decide, by decide, by decide, by decide, by decide, by decide,
    sweepLoop_past_MAX extra⟩

end PixelPainters

namespace PixelPaintersACC

/-! ### The initialisation loop of `PixelPaintersACC.cpp` -/

theorem setColor_getElem?_ne (z : List Pixel) (k m : Nat) (c : Int) (h : k ≠ m) :
    (setColor z k c)[m]? = z[m]? := by
  unfold setColor
  split
  · exact List.getElem?_set_ne h
  · rfl

theorem setDepth_getElem?_ne (z : List Pixel) (k m : Nat) (d : ℚ) (h : k ≠ m) :
    (setDepth z k d)[m]? = z[m]? := by
  unfold setDepth
  split
  · exact List.getElem?_set_ne h
  · rfl

theorem foldl_getElem?_untouched {α : Type} (f : List Pixel → α → List Pixel) (m : Nat)
    (l : List α) (z : List Pixel) (h : ∀ a ∈ l, ∀ y : List Pixel, (f y a)[m]? = y[m]?) :
    (l.foldl f z)[m]? = z[m]? := by
  induction l generalizing z with
  | nil => rfl
  | cons a l ih =>
    rw [List.foldl_cons, ih _ (fun a2 h2 y => h a2 (List.mem_cons_of_mem a h2) y)]
    exact h a (List.mem_cons_self a l) z

/-- A cell whose index is not a product `i * j` with `i, j < w` keeps what the allocation
held. -/
theorem initBuffer_untouched (w : Nat) (z : List Pixel) (m : Nat)
    (h : ∀ i, i < w → ∀ j, j < w → i * j ≠ m) : (initBuffer w z)[m]? = z[m]? := by
  unfold initBuffer
  apply foldl_getElem?_untouched
  intro i hi y
  apply foldl_getElem?_untouched
  intro j hj y2
  have hne := h i (List.mem_range.mp hi) j (List.mem_range.mp hj)
  rw [setDepth_getElem?_ne _ _ _ _ hne, setColor_getElem?_ne _ _ _ _ hne]

/-- C9, the code at a failing input: for the first sweep width `w = 10` and an allocation
whose cells hold `(7, 0.5)`, the cells 11 and 99 still hold `(7, 0.5)` after the
initialisation loop, not `(0, 1)`: no `i * j` with `i, j < 10` equals 11 or 99. -/
theorem initBuffer_misses_cells :
    (initBuffer 10 (List.replicate (10 * 10) ⟨7, 1 / 2⟩))[11]? = some ⟨7, 1 / 2⟩ ∧
      (initBuffer 10 (List.replicate (10 * 10) ⟨7, 1 / 2⟩))[99]? = some ⟨7, 1 / 2⟩ := by
  constructor
  · rw [initBuffer_untouched 10 _ 11 (by decide)]
    rfl
  · rw [initBuffer_untouched 10 _ 99 (by decide)]
    rfl

/-! ### The update of `PixelPaintersACC.cpp`, cell by cell -/

theorem setColor_getElem?_self (z : List Pixel) (k : Nat) (c : Int) :
    (setColor z k c)[k]? = (z[k]?).map (fun p => { p with color := c }) := by
  unfold setColor
  cases hz : z[k]? with
  | none => simp [hz]
  | some p =>
    have hlt : k < z.length := by
      by_contra hge
      rw [List.getElem?_eq_none (by omega)] at hz
      cases hz
    simp [List.getElem?_set_self hlt]

theorem setDepth_getElem?_self (z : List Pixel) (k : Nat) (d : ℚ) :
    (setDepth z k d)[k]? = (z[k]?).map (fun p => { p with depth := d }) := by
  unfold setDepth
  cases hz : z[k]? with
  | none => simp [hz]
  | some p =>
    have hlt : k < z.length := by
      by_contra hge
      rw [List.getElem?_eq_none (by omega)] at hz
      cases hz
    simp [List.getElem?_set_self hlt]

theorem guardedWrite_getElem? (z : List Pixel) (k : Nat) (c : Int) (d : ℚ) (m : Nat) :
    (guardedWrite z k c d)[m]? = if m = k then (z[m]?).map (pixelStep c d) else z[m]? := by
  unfold guardedWrite
  cases hz : z[k]? with
  | none =>
    by_cases hm : m = k
    · subst hm; simp [hz]
    · simp [hm]
  | some p =>
    by_cases hd : d < p.depth
    · by_cases hm : m = k
      · subst hm
        simp [hd, hz, pixelStep, setDepth_getElem?_self, setColor_getElem?_self]
      · simp [hd, hm, setDepth_getElem?_ne _ _ _ _ (Ne.symm hm),
          setColor_getElem?_ne _ _ _ _ (Ne.symm hm)]
    · by_cases hm : m = k
      · subst hm
        simp [hd, hz, pixelStep]
      · simp [hd, hm]

theorem writes_getElem? (ws : List (Nat × Int × ℚ)) (z : List Pixel) (m : Nat) :
    (ws.foldl (fun y w => guardedWrite y w.1 w.2.1 w.2.2) z)[m]? =
      (z[m]?).map (cellFold ws m) := by
  induction ws generalizing z with
  | nil => cases hz : z[m]? <;> simp [cellFold, hz]
  | cons w ws ih =>
    rw [List.foldl_cons, ih, guardedWrite_getElem?]
    by_cases hm : m = w.1
    · cases hz : z[m]? with
      | none => simp [hm]
      | some p => simp [hm, cellFold]
    · have hm2 : ¬ w.1 = m := fun h => hm h.symm
      cases hz : z[m]? with
      | none => simp [hm]
      | some p => simp [hm, hm2, cellFold]

theorem cellFold_cons (w : Nat × Int × ℚ) (ws : List (Nat × Int × ℚ)) (m : Nat) (p : Pixel) :
    cellFold (w :: ws) m p =
      cellFold ws m (if w.1 = m then pixelStep w.2.1 w.2.2 p else p) := rfl

theorem cellFold_depth_le (ws : List (Nat × Int × ℚ)) (m : Nat) (p : Pixel) :
    (cellFold ws m p).depth ≤ p.depth ∧
      ∀ w ∈ ws, w.1 = m → (cellFold ws m p).depth ≤ w.2.2 := by
  induction ws generalizing p with
  | nil => exact ⟨le_refl _, fun w hw => absurd hw (List.not_mem_nil w)⟩
  | cons w ws ih =>
    rw [cellFold_cons]
    by_cases hm : w.1 = m
    · rw [if_pos hm]
      have h1 := (ih (pixelStep w.2.1 w.2.2 p)).1
      have hstep : (pixelStep w.2.1 w.2.2 p).depth = min w.2.2 p.depth :=
        PixelPainters.pixelStep_depth _ _ _
      refine ⟨?_, ?_⟩
      · exact le_trans h1 (by rw [hstep]; exact min_le_right _ _)
      · intro w2 hw2 hm2
        rcases List.mem_cons.mp hw2 with heq | hin
        · subst heq
          exact le_trans h1 (by rw [hstep]; exact min_le_left _ _)
        · exact (ih (pixelStep w.2.1 w.2.2 p)).2 w2 hin hm2
    · rw [if_neg hm]
      refine ⟨(ih p).1, ?_⟩
      intro w2 hw2 hm2
      rcases List.mem_cons.mp hw2 with heq | hin
      · subst heq
        exact absurd hm2 hm
      · exact (ih p).2 w2 hin hm2

theorem cellFold_of_le (ws : List (Nat × Int × ℚ)) (m : Nat) (p : Pixel)
    (h : ∀ w ∈ ws, w.1 = m → p.depth ≤ w.2.2) : cellFold ws m p = p := by
  induction ws generalizing p with
  | nil => rfl
  | cons w ws ih =>
    rw [cellFold_cons]
    by_cases hm : w.1 = m
    · rw [if_pos hm, PixelPainters.pixelStep_of_le _ _ p (h w (List.mem_cons_self w ws) hm)]
      exact ih p (fun w2 hw2 hm2 => h w2 (List.mem_cons_of_mem w hw2) hm2)
    · rw [if_neg hm]
      exact ih p (fun w2 hw2 hm2 => h w2 (List.mem_cons_of_mem w hw2) hm2)

theorem cellFold_idem (ws : List (Nat × Int × ℚ)) (m : Nat) (p : Pixel) :
    cellFold ws m (cellFold ws m p) = cellFold ws m p :=
  cellFold_of_le ws m _ (cellFold_depth_le ws m p).2

theorem writes_idem (ws : List (Nat × Int × ℚ)) (z : List Pixel) :
    ws.foldl (fun y w => guardedWrite y w.1 w.2.1 w.2.2)
        (ws.foldl (fun y w => guardedWrite y w.1 w.2.1 w.2.2) z) =
      ws.foldl (fun y w => guardedWrite y w.1 w.2.1 w.2.2) z := by
  apply List.ext_getElem?
  intro m
  rw [writes_getElem?, writes_getElem?]
  cases z[m]? with
  | none => rfl
  | some p => simp [cellFold_idem]

/-! ### The loops of `updateBufferRandom` -/

theorem foldlM_nested_eq_product {σ α β : Type} (f : σ → α → β → Option σ)
    (l₁ : List α) (l₂ : List β) (s : σ) :
    l₁.foldlM (fun s a => l₂.foldlM (fun s c => f s a c) s) s =
      (List.product l₁ l₂).foldlM (fun s v => f s v.1 v.2) s := by
  induction l₁ generalizing s with
  | nil => rfl
  | cons a l₁ ih =>
    have hcons : List.product (a :: l₁) l₂ =
        List.map (fun c => (a, c)) l₂ ++ List.product l₁ l₂ := List.product_cons a l₁ l₂
    rw [hcons, List.foldlM_append, List.foldlM_map, List.foldlM_cons]
    cases l₂.foldlM (fun s c => f s a c) s with
    | none => rfl
    | some s2 => exact ih s2

theorem updateVisit_some (L H : List Int) (z : List Pixel) (n i j : Nat)
    (hL : n < L.length) (hH : n < H.length) :
    updateVisit L H (z, n) i j =
      some (guardedWrite z (i * j) (H.getD n 0) ((L.getD n 0 : Int) : ℚ), n + 1) := by
  unfold updateVisit
  simp [List.getElem?_eq_getElem hL, List.getElem?_eq_getElem hH, List.getD_eq_getElem?_getD]

theorem updateVisit_none (L H : List Int) (z : List Pixel) (n i j : Nat)
    (h : L.length ≤ n ∨ H.length ≤ n) : updateVisit L H (z, n) i j = none := by
  unfold updateVisit
  rcases h with h | h
  · simp [List.getElem?_eq_none h]
  · rw [List.getElem?_eq_none h]
    cases L[(z, n).2]? <;> rfl

theorem visits_foldlM_some (L H : List Int) (vs : List (Nat × Nat)) (z : List Pixel) (n : Nat)
    (hL : n + vs.length ≤ L.length) (hH : n + vs.length ≤ H.length) :
    vs.foldlM (fun s v => updateVisit L H s v.1 v.2) (z, n) =
      some ((writesFrom L H vs n).foldl (fun y w => guardedWrite y w.1 w.2.1 w.2.2) z,
        n + vs.length) := by
  induction vs generalizing z n with
  | nil => rfl
  | cons v vs ih =>
    rw [List.length_cons] at hL hH
    rw [List.foldlM_cons, updateVisit_some L H z n v.1 v.2 (by omega) (by omega)]
    have h := ih (guardedWrite z (v.1 * v.2) (H.getD n 0) ((L.getD n 0 : Int) : ℚ)) (n + 1)
      (by omega) (by omega)
    simp only [Option.some_bind, Option.bind_eq_bind]
    rw [h]
    simp only [writesFrom, List.foldl_cons, List.length_cons]
    congr 2
    omega

theorem visits_foldlM_none (L H : List Int) (vs : List (Nat × Nat)) (z : List Pixel) (n : Nat)
    (hn : n ≤ L.length ∧ n ≤ H.length)
    (h : L.length < n + vs.length ∨ H.length < n + vs.length) :
    vs.foldlM (fun s v => updateVisit L H s v.1 v.2) (z, n) = none := by
  induction vs generalizing z n with
  | nil =>
    simp only [List.length_nil, Nat.add_zero] at h
    omega
  | cons v vs ih =>
    rw [List.length_cons] at h
    rw [List.foldlM_cons]
    by_cases hr : n < L.length ∧ n < H.length
    · rw [updateVisit_some L H z n v.1 v.2 hr.1 hr.2]
      simp only [Option.some_bind, Option.bind_eq_bind]
      exact ih _ (n + 1) ⟨hr.1, hr.2⟩ (by omega)
    · rw [updateVisit_none L H z n v.1 v.2 (by omega)]
      rfl

theorem visits_length (w : Nat) :
    (List.product (List.range w) (List.range w)).length = w * w := by
  have h := List.length_product (List.range w) (List.range w)
  rw [List.length_range] at h
  exact h

/-- Closed form of `updateBufferRandom` when the arrays cover the `w*w` reads of a call. -/
theorem updateBufferRandom_some (z : List Pixel) (w : Nat) (L H : List Int) (mx : Nat)
    (hL : w * w ≤ L.length) (hH : w * w ≤ H.length) :
    updateBufferRandom z w L H mx =
      some ((writesFrom L H (List.product (List.range w) (List.range w)) 0).foldl
        (fun y v => guardedWrite y v.1 v.2.1 v.2.2) z) := by
  unfold updateBufferRandom
  rw [foldlM_nested_eq_product (fun s i j => updateVisit L H s i j),
    visits_foldlM_some L H _ z 0 (by rw [visits_length]; omega) (by rw [visits_length]; omega)]
  rfl

/-- A call of `updateBufferRandom` reads outside an array that is shorter than `w*w`. -/
theorem updateBufferRandom_none (z : List Pixel) (w : Nat) (L H : List Int) (mx : Nat)
    (h : L.length < w * w ∨ H.length < w * w) : updateBufferRandom z w L H mx = none := by
  unfold updateBufferRandom
  rw [foldlM_nested_eq_product (fun s i j => updateVisit L H s i j),
    visits_foldlM_none L H _ z 0 ⟨Nat.zero_le _, Nat.zero_le _⟩
      (by rw [visits_length]; omega)]
  rfl

theorem frameLoop_succ (n : Nat) (z : List Pixel) (w : Nat) (L H : List Int) (mx : Nat) :
    frameLoop (n + 1) z w L H mx =
      (frameLoop n z w L H mx).bind (fun y => updateBufferRandom y w L H mx) := by
  unfold frameLoop
  rw [List.range_succ, List.foldlM_append]
  cases List.foldlM (fun y _ => updateBufferRandom y w L H mx) z (List.range n) with
  | none => rfl
  | some y => simp [List.foldlM_cons]

theorem frameLoop_fixed (n : Nat) (z z1 : List Pixel) (w : Nat) (L H : List Int) (mx : Nat)
    (h1 : updateBufferRandom z w L H mx = some z1)
    (h2 : updateBufferRandom z1 w L H mx = some z1) :
    frameLoop (n + 1) z w L H mx = some z1 := by
  induction n with
  | zero =>
    rw [frameLoop_succ]
    simp [frameLoop, h1]
  | succ n ih =>
    rw [frameLoop_succ, ih]
    exact h2

theorem max_eq : max = 100000 := by decide

theorem genRandArrL_length (draws : Nat → Nat) : (genRandArrL draws).length = max := by
  simp [genRandArrL]

theorem genRandArrH_length (draws : Nat → Nat) : (genRandArrH draws).length = max := by
  simp [genRandArrH]

theorem sweepLoop_eq (extra : Nat) :
    sweepLoop (iterations + extra) 10 = [10, 100, 1000, 10000, 100000] := by
  have h : iterations + extra = extra + 1 + 1 + 1 + 1 + 1 := by
    simp only [iterations]
    omega
  rw [h]
  cases extra <;> simp [sweepLoop, max_eq]

/-- C11, the code at a failing input: 1000 is one of the sweep widths and `1000 * 1000`
exceeds `max`; with the arrays `randArrL`, `randArrH` of length `max` that `main` builds,
the visit `(100, 0)` of a call with width 1000 finds `count = 100 * 1000 + 0 = max` and
reads outside both arrays, so the call does not stay in range, whatever the buffer and the
draws of `rand()`; the calls for the widths 10 and 100 do stay in range. -/
theorem stream_reads_leave_range :
    1000 ∈ sweepLoop iterations 10 ∧ max < 1000 * 1000 ∧
      (∀ (draws : Nat → Nat) (z : List Pixel),
        updateVisit (genRandArrL draws) (genRandArrH draws) (z, 100 * 1000 + 0) 100 0 = none) ∧
      (∀ (draws : Nat → Nat) (z : List Pixel),
        updateBufferRandom z 1000 (genRandArrL draws) (genRandArrH draws) max = none) ∧
      (∀ (draws : Nat → Nat) (z : List Pixel),
        (updateBufferRandom z 10 (genRandArrL draws) (genRandArrH draws) max).isSome = true ∧
        (updateBufferRandom z 100 (genRandArrL draws) (genRandArrH draws) max).isSome = true) := by
  refine ⟨?_, ?_, ?_, ?_, ?_⟩
  · rw [show iterations = iterations + 0 from rfl, sweepLoop_eq]
    decide
  · rw [max_eq]
    decide
  · intro draws z
    apply updateVisit_none
    left
    rw [genRandArrL_length, max_eq]
  · intro draws z
    apply updateBufferRandom_none
    left
    rw [genRandArrL_length, max_eq]
    decide
  · intro draws z
    have hL := genRandArrL_length draws
    have hH := genRandArrH_length draws
    rw [max_eq] at hL hH
    constructor
    · rw [updateBufferRandom_some z 10 _ _ max (by rw [hL]; decide) (by rw [hH]; decide)]
      rfl
    · rw [updateBufferRandom_some z 100 _ _ max (by rw [hL]; decide) (by rw [hH]; decide)]
      rfl

/-! ### The `i*j` addressing -/

theorem product_lt_last {w i j : Nat} (hw : 2 ≤ w) (hi : i < w) (hj : j < w) :
    i * j < w * w - 1 := by
  have h1 : i * j ≤ (w - 1) * (w - 1) := Nat.mul_le_mul (by omega) (by omega)
  obtain ⟨v, rfl⟩ : ∃ v, w = v + 2 := ⟨w - 2, by omega⟩
  have h2 : (v + 2 - 1) * (v + 2 - 1) = v * v + 2 * v + 1 := by
    have : v + 2 - 1 = v + 1 := by omega
    rw [this]
    ring
  have h3 : (v + 2) * (v + 2) = v * v + 4 * v + 4 := by ring
  omega

theorem mem_writesFrom (L H : List Int) (vs : List (Nat × Nat)) (n : Nat)
    (x : Nat × Int × ℚ) (hx : x ∈ writesFrom L H vs n) : ∃ v ∈ vs, x.1 = v.1 * v.2 := by
  induction vs generalizing n with
  | nil => simp [writesFrom] at hx
  | cons v vs ih =>
    simp only [writesFrom, List.mem_cons] at hx
    rcases hx with heq | hin
    · exact ⟨v, List.mem_cons_self v vs, by rw [heq]⟩
    · obtain ⟨v2, hv2, h⟩ := ih (n + 1) hin
      exact ⟨v2, List.mem_cons_of_mem v hv2, h⟩

theorem updateBufferRandom_untouched (z y : List Pixel) (w : Nat) (L H : List Int) (mx m : Nat)
    (h : ∀ i, i < w → ∀ j, j < w → i * j ≠ m)
    (hy : updateBufferRandom z w L H mx = some y) : y[m]? = z[m]? := by
  by_cases hlen : w * w ≤ L.length ∧ w * w ≤ H.length
  · rw [updateBufferRandom_some z w L H mx hlen.1 hlen.2] at hy
    simp only [Option.some.injEq] at hy
    rw [← hy, writes_getElem?]
    cases hz : z[m]? with
    | none => rfl
    | some p =>
      rw [Option.map_some', cellFold_of_le]
      intro x hx hxm
      obtain ⟨v, hv, hcell⟩ := mem_writesFrom L H _ 0 x hx
      have hv1 : v.1 < w := by
        have := (List.mem_product.mp (show (v.1, v.2) ∈ _ from hv)).1
        exact List.mem_range.mp this
      have hv2 : v.2 < w := by
        have := (List.mem_product.mp (show (v.1, v.2) ∈ _ from hv)).2
        exact List.mem_range.mp this
      exact absurd (hcell.symm.trans hxm) (h v.1 hv1 v.2 hv2)
  · rw [updateBufferRandom_none z w L H mx (by omega)] at hy
    cases hy

/-- C14 (the `i*j` addressing is not a row-major addressing): for every width `w >= 2` the
map `(i, j) -> i*j` on `[0,w) x [0,w)` is not injective, `(0,0)` and `(0,1)` sharing the
index 0, and not onto `[0, w*w)`, the index `w*w-1` being the product of no pair; so the
cell `w*w-1` is reached neither by the initialisation loop nor by a call of
`updateBufferRandom`: it keeps the content it had. -/
theorem product_index_not_row_major (w : Nat) (hw : 2 ≤ w) :
    ¬ Set.InjOn (fun v : Nat × Nat => v.1 * v.2) {v | v.1 < w ∧ v.2 < w} ∧
      ¬ Set.SurjOn (fun v : Nat × Nat => v.1 * v.2) {v | v.1 < w ∧ v.2 < w} {c | c < w * w} ∧
      (0 * 0 = 0 * 1 ∧ ∀ i j, i < w → j < w → i * j ≠ w * w - 1) ∧
      (∀ z : List Pixel, (initBuffer w z)[w * w - 1]? = z[w * w - 1]?) ∧
      (∀ (z y : List Pixel) (L H : List Int) (mx : Nat),
        updateBufferRandom z w L H mx = some y → y[w * w - 1]? = z[w * w - 1]?) := by
  have hne : ∀ i, i < w → ∀ j, j < w → i * j ≠ w * w - 1 := fun i hi j hj =>
    Nat.ne_of_lt (product_lt_last hw hi hj)
  refine ⟨?_, ?_, ⟨rfl, fun i j hi hj => hne i hi j hj⟩, ?_, ?_⟩
  · intro hinj
    have h := hinj (show ((0, 0) : Nat × Nat) ∈ {v : Nat × Nat | v.1 < w ∧ v.2 < w} from
      ⟨by show 0 < w; omega, by show 0 < w; omega⟩)
      (show ((0, 1) : Nat × Nat) ∈ {v : Nat × Nat | v.1 < w ∧ v.2 < w} from
        ⟨by show 0 < w; omega, by show 1 < w; omega⟩) rfl
    cases h
  · intro hsurj
    have hlast : w * w - 1 ∈ {c : Nat | c < w * w} := by
      have : 0 < w * w := Nat.mul_pos (by omega) (by omega)
      show w * w - 1 < w * w
      omega
    obtain ⟨v, ⟨hv1, hv2⟩, hv⟩ := hsurj hlast
    exact hne v.1 hv1 v.2 hv2 hv
  · intro z
    exact initBuffer_untouched w z _ hne
  · intro z y L H mx hy
    exact updateBufferRandom_untouched z y w L H mx _ hne hy

/-- Instance of C14: width 2, where the indices used are 0 and 1 and cell 3 is never
reached. -/
theorem product_index_not_row_major_witness :
    ¬ Set.InjOn (fun v : Nat × Nat => v.1 * v.2) {v | v.1 < 2 ∧ v.2 < 2} ∧
      ¬ Set.SurjOn (fun v : Nat × Nat => v.1 * v.2) {v | v.1 < 2 ∧ v.2 < 2} {c | c < 2 * 2} ∧
      (0 * 0 = 0 * 1 ∧ ∀ i j, i < 2 → j < 2 → i * j ≠ 2 * 2 - 1) ∧
      (∀ z : List Pixel, (initBuffer 2 z)[2 * 2 - 1]? = z[2 * 2 - 1]?) ∧
      (∀ (z y : List Pixel) (L H : List Int) (mx : Nat),
        updateBufferRandom z 2 L H mx = some y → y[2 * 2 - 1]? = z[2 * 2 - 1]?) :=
  product_index_not_row_major 2 (by decide)

/-! ### Repeated frames and the constant depth stream -/

/-- C15 (repeated frames are no-ops): for every width `w` with `w*w <= max`, every buffer
and all contents of the two arrays of length `max`, a call of `updateBufferRandom` returns
a buffer `z1`, a second call with the same arguments on `z1` returns `z1` again, and the
`fps = 10` calls of the driver return `z1` as well. -/
theorem repeated_frames_noop (zbuffer : List Pixel) (w : Nat) (randArrL randArrH : List Int)
    (hw : w * w ≤ max) (hL : randArrL.length = max) (hH : randArrH.length = max) :
    ∃ z1, updateBufferRandom zbuffer w randArrL randArrH max = some z1 ∧
      updateBufferRandom z1 w randArrL randArrH max = some z1 ∧
      frameLoop fps zbuffer w randArrL randArrH max = some z1 := by
  have h1 := updateBufferRandom_some zbuffer w randArrL randArrH max (by omega) (by omega)
  refine ⟨_, h1, ?_, ?_⟩
  · rw [updateBufferRandom_some _ w randArrL randArrH max (by omega) (by omega), writes_idem]
  · apply frameLoop_fixed 9 _ _ w randArrL randArrH max h1
    rw [updateBufferRandom_some _ w randArrL randArrH max (by omega) (by omega), writes_idem]

/-- Instance of C15: width 2 on the all-`(0, 1)` buffer with arrays of `max` zeros. -/
theorem repeated_frames_noop_witness :
    ∃ z1, updateBufferRandom (List.replicate 4 ⟨0, 1⟩) 2 (List.replicate max 0)
          (List.replicate max 0) max = some z1 ∧
      updateBufferRandom z1 2 (List.replicate max 0) (List.replicate max 0) max = some z1 ∧
      frameLoop fps (List.replicate 4 ⟨0, 1⟩) 2 (List.replicate max 0) (List.replicate max 0)
        max = some z1 :=
  repeated_frames_noop (List.replicate 4 ⟨0, 1⟩) 2 (List.replicate max 0)
    (List.replicate max 0) (by rw [max_eq]; decide) (by simp) (by simp)

theorem floatToInt_genRandom1 (r : Nat) : floatToInt (genRandom1 r) = 0 := by
  have h : r % 10 < 10 := Nat.mod_lt r (by decide)
  have h2 : ((r % 10 : Nat) : ℚ) < 10 := by exact_mod_cast h
  have h3 : (0 : ℚ) ≤ ((r % 10 : Nat) : ℚ) := Nat.cast_nonneg _
  have h0 : (0 : ℚ) ≤ genRandom1 r := div_nonneg h3 (by norm_num)
  have h1 : genRandom1 r < 1 := by
    unfold genRandom1
    rw [div_lt_one (by norm_num)]
    exact h2
  unfold floatToInt
  rw [if_pos h0, Int.floor_eq_zero_iff]
  exact ⟨h0, h1⟩

theorem genRandArrL_zero (draws : Nat → Nat) (l : Int) (hl : l ∈ genRandArrL draws) : l = 0 := by
  unfold genRandArrL at hl
  obtain ⟨k, _, hk⟩ := List.mem_map.mp hl
  rw [← hk]
  exact floatToInt_genRandom1 (draws k)

theorem genRandArrL_getD (draws : Nat → Nat) (n : Nat) : (genRandArrL draws).getD n 0 = 0 := by
  rw [List.getD_eq_getElem?_getD]
  cases h : (genRandArrL draws)[n]? with
  | none => rfl
  | some l =>
    obtain ⟨hlt, heq⟩ := List.getElem?_eq_some.mp h
    exact genRandArrL_zero draws l (heq ▸ List.getElem_mem hlt)

theorem guardedWrite_of_le (z : List Pixel) (k : Nat) (c : Int) (d : ℚ) (p : Pixel)
    (hz : z[k]? = some p) (hd : p.depth ≤ d) : guardedWrite z k c d = z := by
  unfold guardedWrite
  rw [hz]
  simp only
  rw [if_neg (not_lt.mpr hd)]

/-- C16 (the depth stream is constant zero): `genRandom1` returns `(r % 10) / 10`, which the
conversion to `int` truncates to 0 for every value `r` of `rand()`; so every element of
`randArrL` is 0, every visit of `updateBufferRandom` that reads in range does its guarded
write with the candidate depth 0, a pixel that such a visit writes (stored depth above 0)
holds depth 0 afterwards, and a pixel of depth 0 is left unchanged by any further visit. -/
theorem depth_stream_zero (draws : Nat → Nat) (r : Nat) :
    floatToInt (genRandom1 r) = 0 ∧
      (∀ l ∈ genRandArrL draws, l = 0) ∧
      (∀ (H : List Int) (z : List Pixel) (n i j : Nat) (s : List Pixel × Nat),
        updateVisit (genRandArrL draws) H (z, n) i j = some s →
          s = (guardedWrite z (i * j) (H.getD n 0) 0, n + 1)) ∧
      (∀ (z : List Pixel) (k : Nat) (c : Int) (p : Pixel),
        z[k]? = some p → 0 < p.depth → (guardedWrite z k c 0)[k]? = some ⟨c, 0⟩) ∧
      (∀ (z : List Pixel) (k : Nat) (c : Int) (p : Pixel),
        z[k]? = some p → p.depth = 0 → guardedWrite z k c 0 = z) := by
  refine ⟨floatToInt_genRandom1 r, genRandArrL_zero draws, ?_, ?_, ?_⟩
  · intro H z n i j s hs
    by_cases hr : n < (genRandArrL draws).length ∧ n < H.length
    · rw [updateVisit_some _ H z n i j hr.1 hr.2, genRandArrL_getD] at hs
      simp only [Option.some.injEq] at hs
      rw [← hs]
      simp
    · rw [updateVisit_none _ H z n i j (by omega)] at hs
      cases hs
  · intro z k c p hz hp
    rw [guardedWrite_getElem?, if_pos rfl, hz]
    simp [pixelStep, hp]
  · intro z k c p hz hp
    exact guardedWrite_of_le z k c 0 p hz (le_of_eq hp)

/-! ### 32-bit arithmetic -/

theorem wrapInt32_of_lt (x : Int) (h0 : 0 ≤ x) (h1 : x < 2 ^ 31) : wrapInt32 x = x := by
  unfold wrapInt32
  have h : (x + 2 ^ 31) % 2 ^ 32 = x + 2 ^ 31 :=
    Int.emod_eq_of_lt (by omega) (by norm_num at h1 ⊢; omega)
  rw [h]
  omega

/-- C17 (32-bit overflow of the pixel count): the last width of the sweep of
`PixelPaintersACC.cpp` is `max = 100000`, for which the `int` expression `w*w` evaluates
under 32-bit wrap-around to `1410065408` and not to the mathematical `10^10`; for every
width `w = DIM * 2^k`, `k <= ITERS`, of the sweep of `PixelPainters.cpp`, every frame
`b < FPS` and all `i, j < w`, `w*w <= 12800^2 = 163840000 < 2^31` and the expressions
`w*w`, `i*w+j` and `j+b` keep their mathematical value. -/
theorem pixel_count_overflow (k b i j : Nat) (hk : k ≤ PixelPainters.ITERS)
    (hb : b < PixelPainters.FPS) (hi : i < PixelPainters.DIM * 2 ^ k)
    (hj : j < PixelPainters.DIM * 2 ^ k) :
    (∀ extra, (sweepLoop (iterations + extra) 10).getLast? = some max) ∧
      ((max : Int) * (max : Int) = 10 ^ 10 ∧ pixelCount (max : Int) = 1410065408 ∧
        pixelCount (max : Int) ≠ (max : Int) * (max : Int)) ∧
      (PixelPainters.DIM * 2 ^ k * (PixelPainters.DIM * 2 ^ k) ≤ 163840000 ∧
        (163840000 : Int) < 2 ^ 31) ∧
      wrapInt32 (((PixelPainters.DIM * 2 ^ k : Nat) : Int) *
          ((PixelPainters.DIM * 2 ^ k : Nat) : Int)) =
        ((PixelPainters.DIM * 2 ^ k : Nat) : Int) * ((PixelPainters.DIM * 2 ^ k : Nat) : Int) ∧
      wrapInt32 ((i : Int) * ((PixelPainters.DIM * 2 ^ k : Nat) : Int) + (j : Int)) =
        (i : Int) * ((PixelPainters.DIM * 2 ^ k : Nat) : Int) + (j : Int) ∧
      wrapInt32 ((j : Int) + (b : Int)) = (j : Int) + (b : Int) := by
  have hw : PixelPainters.DIM * 2 ^ k ≤ 12800 := by
    have h := PixelPainters.sweep_width_le_MAX hk
    rw [PixelPainters.MAX_eq] at h
    exact h
  have hF : PixelPainters.FPS = 100 := rfl
  have hsq : PixelPainters.DIM * 2 ^ k * (PixelPainters.DIM * 2 ^ k) ≤ 12800 * 12800 :=
    Nat.mul_le_mul hw hw
  have hcell : i * (PixelPainters.DIM * 2 ^ k) + j <
      PixelPainters.DIM * 2 ^ k * (PixelPainters.DIM * 2 ^ k) := PixelPainters.cell_lt hi hj
  refine ⟨?_, ⟨by rw [max_eq]; norm_num, by rw [max_eq]; decide, by rw [max_eq]; decide⟩,
    ⟨by omega, by norm_num⟩, ?_, ?_, ?_⟩
  · intro extra
    rw [sweepLoop_eq, max_eq]
    rfl
  · apply wrapInt32_of_lt
    · positivity
    · have h : ((PixelPainters.DIM * 2 ^ k * (PixelPainters.DIM * 2 ^ k) : Nat) : Int) ≤
          ((12800 * 12800 : Nat) : Int) := by exact_mod_cast hsq
      rw [Nat.cast_mul] at h
      norm_num at h ⊢
      omega
  · apply wrapInt32_of_lt
    · positivity
    · have h : ((i * (PixelPainters.DIM * 2 ^ k) + j : Nat) : Int) <
          ((12800 * 12800 : Nat) : Int) := by exact_mod_cast lt_of_lt_of_le hcell hsq
      rw [Nat.cast_add, Nat.cast_mul] at h
      norm_num at h ⊢
      omega
  · apply wrapInt32_of_lt
    · positivity
    · norm_num
      omega

/-- Instance of C17: the last width `DIM * 2^7 = 12800` of `PixelPainters.cpp`, last frame,
last pixel. -/
theorem pixel_count_overflow_witness :
    (∀ extra, (sweepLoop (iterations + extra) 10).getLast? = some max) ∧
      ((max : Int) * (max : Int) = 10 ^ 10 ∧ pixelCount (max : Int) = 1410065408 ∧
        pixelCount (max : Int) ≠ (max : Int) * (max : Int)) ∧
      (PixelPainters.DIM * 2 ^ 7 * (PixelPainters.DIM * 2 ^ 7) ≤ 163840000 ∧
        (163840000 : Int) < 2 ^ 31) ∧
      wrapInt32 (((PixelPainters.DIM * 2 ^ 7 : Nat) : Int) *
          ((PixelPainters.DIM * 2 ^ 7 : Nat) : Int)) =
        ((PixelPainters.DIM * 2 ^ 7 : Nat) : Int) * ((PixelPainters.DIM * 2 ^ 7 : Nat) : Int) ∧
      wrapInt32 (((12799 : Nat) : Int) * ((PixelPainters.DIM * 2 ^ 7 : Nat) : Int) +
          ((12799 : Nat) : Int)) =
        ((12799 : Nat) : Int) * ((PixelPainters.DIM * 2 ^ 7 : Nat) : Int) +
          ((12799 : Nat) : Int) ∧
      wrapInt32 (((12799 : Nat) : Int) + ((99 : Nat) : Int)) =
        ((12799 : Nat) : Int) + ((99 : Nat) : Int) :=
  pixel_count_overflow 7 99 12799 12799 (by decide) (by decide) (by decide) (by decide)

end PixelPaintersACC

namespace PixelPainters

/-- C18, the claim on the code: the size loop runs its body for the eight widths
`100, 200, ..., 12800`, and eight is not `ITERS = 7`; this is so for every fuel of at least
`ITERS + 1` iterations, that is whenever the loop is run to its end. -/
theorem sweep_count_not_ITERS :
    sweepWidths (ITERS + 1) = [100, 200, 400, 800, 1600, 3200, 6400, 12800] ∧
      (sweepWidths (ITERS + 1)).length ≠ ITERS ∧
      ∀ extra, (sweepWidths (ITERS + 1 + extra)).length ≠ ITERS := by
  refine ⟨sweepWidths_eq 0, ?_, ?_⟩
  · rw [show ITERS + 1 = ITERS + 1 + 0 from rfl, sweepWidths_eq]
    decide
  · intro extra
    rw [sweepWidths_eq]
    decide

/-- C18 as amended (iteration count): with any fuel of at least `ITERS + 1` iterations the
size loop `for (w = DIM; w <= MAX; w *= 2)` runs its body for exactly `ITERS + 1 = 8`
widths: the initial width `DIM` and one more for each of the `ITERS` doublings up to
`MAX = DIM * 2^ITERS`, which the inclusive bound `w <= MAX` admits. -/
theorem sweep_count_eq_ITERS_succ (extra : Nat) :
    (sweepWidths (ITERS + 1 + extra)).length = ITERS + 1 ∧ ITERS + 1 = 8 ∧
      (sweepWidths (ITERS + 1 + extra)).getLast? = some (DIM * 2 ^ ITERS) ∧
      DIM * 2 ^ ITERS = MAX := by
  rw [sweepWidths_eq]
  decide

end PixelPainters
